import Mathlib

/-!
Verification of the VR-controller-emulator core against its design document.

Part 1 embeds the state estimator of `src/utils/physics.ts` (class
`PhysicsEngine`) over the real numbers: JS `number` arithmetic is modelled by
exact real arithmetic, `Math.sqrt` by `Real.sqrt`, and the JS falsy test
`this.state.lastUpdate || now` by an explicit comparison with `0`.

Part 2 embeds the packet framer and relay of `src/termux/server.js` over
`List Char`, together with a model of the JavaScript `JSON.parse` builtin
(JSON grammar: whitespace, `null`/`true`/`false`, numbers with optional sign,
fraction and exponent, strings with escapes, arrays and objects).
-/

set_option maxHeartbeats 1000000
set_option maxRecDepth 4000

namespace VRC

/-- Tuning constants of `src/utils/physics.ts` (lines 4-7).  `ALPHA` and
`VELOCITY_THRESHOLD` are declared in the source but never used by `update`. -/
def ALPHA : ℝ := 0.98

def FRICTION : ℝ := 0.95

def VELOCITY_THRESHOLD : ℝ := 0.05

def GRAVITY : ℝ := 9.81

def SCALE_FACTOR : ℝ := 0.5

/-- `Vector3` of `src/types` (`src/unnamed/part_000`); also models the
`number[]` sensor triples, with `x`, `y`, `z` standing for indices 0, 1, 2. -/
structure Vec3 where
  x : ℝ
  y : ℝ
  z : ℝ

/-- `Quaternion` of `src/types`. -/
structure Quat where
  x : ℝ
  y : ℝ
  z : ℝ
  w : ℝ

/-- `ControllerState` of `src/types`. -/
structure ControllerState where
  position : Vec3
  rotation : Quat
  velocity : Vec3
  lastUpdate : ℝ

namespace PhysicsEngine

/-- The state installed by the `PhysicsEngine` constructor (physics.ts 13-20):
zero position and velocity, identity quaternion, `lastUpdate = 0`. -/
def constructState : ControllerState :=
  ⟨⟨0, 0, 0⟩, ⟨0, 0, 0, 1⟩, ⟨0, 0, 0⟩, 0⟩

/-- `PhysicsEngine.reset` (physics.ts 22-29).  The prior state `s` is taken as
an argument to mirror the method replacing `this.state`; `now` models the value
of `performance.now()` at the call. -/
def reset (_s : ControllerState) (now : ℝ) : ControllerState :=
  ⟨⟨0, 0, 0⟩, ⟨0, 0, 0, 1⟩, ⟨0, 0, 0⟩, now⟩

/-- `PhysicsEngine.getState` (physics.ts 31-33). -/
def getState (s : ControllerState) : ControllerState := s

/-- `PhysicsEngine.multiplyQuaternions` (physics.ts 36-43), component formulas
verbatim. -/
def multiplyQuaternions (q1 q2 : Quat) : Quat :=
  ⟨q1.x * q2.w + q1.y * q2.z - q1.z * q2.y + q1.w * q2.x,
   -q1.x * q2.z + q1.y * q2.w + q1.z * q2.x + q1.w * q2.y,
   q1.x * q2.y - q1.y * q2.x + q1.z * q2.w + q1.w * q2.z,
   -q1.x * q2.x - q1.y * q2.y - q1.z * q2.z + q1.w * q2.w⟩

/-- `PhysicsEngine.applyQuaternion` (physics.ts 46-60). -/
def applyQuaternion (v : Vec3) (q : Quat) : Vec3 :=
  let ix := q.w * v.x + q.y * v.z - q.z * v.y
  let iy := q.w * v.y + q.z * v.x - q.x * v.z
  let iz := q.w * v.z + q.x * v.y - q.y * v.x
  let iw := -q.x * v.x - q.y * v.y - q.z * v.z
  ⟨ix * q.w + iw * -q.x + iy * -q.z - iz * -q.y,
   iy * q.w + iw * -q.y + iz * -q.x - ix * -q.z,
   iz * q.w + iw * -q.z + ix * -q.y - iy * -q.x⟩

/-- The time delta of `update` (physics.ts 64):
`(now - (this.state.lastUpdate || now)) / 1000`, where `||` yields `now`
exactly when `lastUpdate` is the falsy number `0`. -/
noncomputable def dtOf (s : ControllerState) (timestamp : ℝ) : ℝ :=
  (timestamp - (if s.lastUpdate = 0 then timestamp else s.lastUpdate)) / 1000

/-- Squared Euclidean norm of a quaternion, as in physics.ts 93 and 100. -/
def normSq (q : Quat) : ℝ := q.x ^ 2 + q.y ^ 2 + q.z ^ 2 + q.w ^ 2

/-- Division of each component by the Euclidean magnitude, as in
physics.ts 93-94 (for `dQ`) and 100-104 (for the rotation). -/
noncomputable def qNormalize (q : Quat) : Quat :=
  let m := Real.sqrt (normSq q)
  ⟨q.x / m, q.y / m, q.z / m, q.w / m⟩

/-- The small-angle incremental quaternion `dQ` (physics.ts 85-90).
The nearby `halfTheta` / `sinHalfTheta` / `cosHalfTheta` / `ratio` values
(physics.ts 78-83) are computed by the source but never used, so they do not
appear in the embedding. -/
def smallAngleDQ (gyro : Vec3) (dt : ℝ) : Quat :=
  ⟨gyro.x * dt * 0.5, gyro.y * dt * 0.5, gyro.z * dt * 0.5, 1⟩

/-- The rotation stored after an accepted `update` (physics.ts 85-104):
normalize `dQ`, right-multiply it onto the current rotation with
`multiplyQuaternions`, and normalize the product. -/
noncomputable def rotationAfter (s : ControllerState) (gyro : Vec3) (t : ℝ) : Quat :=
  qNormalize (multiplyQuaternions s.rotation (qNormalize (smallAngleDQ gyro (dtOf s t))))

/-- The world-frame acceleration before the dead zone (physics.ts 120-138):
rotate the raw sample by the freshly updated rotation, then subtract `GRAVITY`
from the `y` axis. -/
noncomputable def worldAccelPre (s : ControllerState) (accel gyro : Vec3) (t : ℝ) : Vec3 :=
  let w := applyQuaternion accel (rotationAfter s gyro t)
  ⟨w.x, w.y - GRAVITY, w.z⟩

/-- The dead zone (physics.ts 141-143): any axis below `0.2` in magnitude is
clamped to exactly zero. -/
noncomputable def deadZone (w : Vec3) : Vec3 :=
  ⟨if |w.x| < 0.2 then 0 else w.x,
   if |w.y| < 0.2 then 0 else w.y,
   if |w.z| < 0.2 then 0 else w.z⟩

/-- Velocity after integration and damping (physics.ts 146-153), before the
zero-velocity update. -/
noncomputable def dampedVelocity (s : ControllerState) (accel gyro : Vec3) (t : ℝ) : Vec3 :=
  let dt := dtOf s t
  let a := deadZone (worldAccelPre s accel gyro t)
  ⟨(s.velocity.x + a.x * dt) * FRICTION,
   (s.velocity.y + a.y * dt) * FRICTION,
   (s.velocity.z + a.z * dt) * FRICTION⟩

/-- The zero-velocity update (physics.ts 156-160): halve the velocity when
every axis of its argument (the post-dead-zone world acceleration) is below
`0.1` in magnitude. -/
noncomputable def zvuHalve (a v : Vec3) : Vec3 :=
  if |a.x| < 0.1 ∧ |a.y| < 0.1 ∧ |a.z| < 0.1 then ⟨v.x * 0.5, v.y * 0.5, v.z * 0.5⟩ else v

/-- `PhysicsEngine.update` (physics.ts 62-169).  `lastUpdate` is advanced
before the `dt` guard, exactly as in the source (line 65 precedes line 67); on
acceptance the rotation, velocity and position pipelines above are applied. -/
noncomputable def update (s : ControllerState) (accel gyro : Vec3) (timestamp : ℝ) :
    ControllerState :=
  let dt := dtOf s timestamp
  let s1 : ControllerState := { s with lastUpdate := timestamp }
  if dt > 1 ∨ dt ≤ 0 then s1
  else
    let v3 := zvuHalve (deadZone (worldAccelPre s accel gyro timestamp))
      (dampedVelocity s accel gyro timestamp)
    { position :=
        ⟨s.position.x + v3.x * dt * SCALE_FACTOR,
         s.position.y + v3.y * dt * SCALE_FACTOR,
         s.position.z + v3.z * dt * SCALE_FACTOR⟩,
      rotation := rotationAfter s gyro timestamp,
      velocity := v3,
      lastUpdate := timestamp }

/-- A finite sequence of `update` calls, applied in order. -/
noncomputable def applyCalls : ControllerState → List (Vec3 × Vec3 × ℝ) → ControllerState
  | s, [] => s
  | s, (a, g, t) :: rest => applyCalls (update s a g t) rest

/-- Textbook Hamilton product, stated as in the design document: the `w`-major
grouping `p ⊗ q`. -/
def hamiltonMul (p q : Quat) : Quat :=
  ⟨p.w * q.x + p.x * q.w + p.y * q.z - p.z * q.y,
   p.w * q.y + p.y * q.w + p.z * q.x - p.x * q.z,
   p.w * q.z + p.z * q.w + p.x * q.y - p.y * q.x,
   p.w * q.w - p.x * q.x - p.y * q.y - p.z * q.z⟩

end PhysicsEngine

/-! ## Packet framer and relay (`src/termux/server.js`) -/

/-- JSON whitespace (also the characters relevant to `String.prototype.trim`
on the sensor stream): space, tab, line feed, carriage return. -/
def isWs (c : Char) : Bool := c == ' ' || c == '\t' || c == '\n' || c == '\r'

/-- Drop leading whitespace (used both for `trim` and between JSON tokens). -/
def skipWs (cs : List Char) : List Char := cs.dropWhile isWs

/-- `String.prototype.trim`: drop trailing whitespace, then leading. -/
def trim (cs : List Char) : List Char := skipWs ((skipWs cs.reverse).reverse)

mutual

/-- JSON values, as produced by the `JSON.parse` builtin.  The lists of array
elements and object members are given by the mutually defined `JsonList` and
`JsonKVs` so that all recursion over values is structural. -/
inductive Json where
  | null
  | bool (b : Bool)
  | num (m : ℤ) (e : ℤ)
  | str (s : List Char)
  | arr (xs : JsonList)
  | obj (kvs : JsonKVs)
  deriving DecidableEq

inductive JsonList where
  | nil
  | cons (hd : Json) (tl : JsonList)
  deriving DecidableEq

inductive JsonKVs where
  | nil
  | cons (k : List Char) (v : Json) (tl : JsonKVs)
  deriving DecidableEq

end

/-- Whether a JSON value is an object — the shape of a sensor record. -/
def Json.isObjB : Json → Bool
  | .obj _ => true
  | _ => false

/-- Value of a decimal digit string. -/
def digitsVal (ds : List Char) : ℕ := ds.foldl (fun n c => n * 10 + (c.toNat - 48)) 0

/-- Hexadecimal digit value, for `\uXXXX` string escapes. -/
def hexVal? (c : Char) : Option ℕ :=
  if c.isDigit then some (c.toNat - 48)
  else if 'a' ≤ c ∧ c ≤ 'f' then some (c.toNat - 87)
  else if 'A' ≤ c ∧ c ≤ 'F' then some (c.toNat - 55)
  else none

/-- Single-character JSON string escapes. -/
def escChar? : Char → Option Char
  | '"' => some '"'
  | '\\' => some '\\'
  | '/' => some '/'
  | 'b' => some (Char.ofNat 8)
  | 'f' => some (Char.ofNat 12)
  | 'n' => some '\n'
  | 'r' => some '\r'
  | 't' => some '\t'
  | _ => none

/-- Body of a JSON string, positioned just after the opening quote; returns
the decoded content and the input after the closing quote.  Unescaped control
characters are rejected, as by `JSON.parse`. -/
def parseStringBody : List Char → Option (List Char × List Char)
  | [] => none
  | '"' :: rest => some ([], rest)
  | '\\' :: 'u' :: h1 :: h2 :: h3 :: h4 :: rest =>
    match hexVal? h1, hexVal? h2, hexVal? h3, hexVal? h4 with
    | some a, some b, some c, some d =>
      (parseStringBody rest).map fun sr =>
        (Char.ofNat (((a * 16 + b) * 16 + c) * 16 + d) :: sr.1, sr.2)
    | _, _, _, _ => none
  | '\\' :: e :: rest =>
    match escChar? e with
    | some c => (parseStringBody rest).map fun sr => (c :: sr.1, sr.2)
    | none => none
  | c :: rest =>
    if c.toNat < 32 then none
    else (parseStringBody rest).map fun sr => (c :: sr.1, sr.2)

/-- Optional leading minus sign of a JSON number. -/
def parseSign : List Char → Bool × List Char
  | [] => (false, [])
  | c :: r => if c = '-' then (true, r) else (false, c :: r)

/-- Integer part of a JSON number: `0`, or a nonzero digit followed by
digits (leading zeros are not absorbed, as in the JSON grammar). -/
def parseIntPart : List Char → Option (ℕ × List Char)
  | [] => none
  | c :: r =>
    if c = '0' then some (0, r)
    else if c.isDigit then
      some (digitsVal (c :: r.takeWhile Char.isDigit), r.dropWhile Char.isDigit)
    else none

/-- Optional fraction part `.digits`; returns its value, its digit count and
the rest. -/
def parseFracPart : List Char → Option (ℕ × ℕ × List Char)
  | '.' :: r =>
    if r.takeWhile Char.isDigit = [] then none
    else some (digitsVal (r.takeWhile Char.isDigit), (r.takeWhile Char.isDigit).length,
      r.dropWhile Char.isDigit)
  | cs => some (0, 0, cs)

/-- Optional sign of an exponent. -/
def parseExpSign : List Char → Bool × List Char
  | [] => (false, [])
  | c :: r =>
    if c = '+' then (false, r) else if c = '-' then (true, r) else (false, c :: r)

/-- Exponent digits after `e`/`E`, with optional sign. -/
def parseExpTail (cs : List Char) : Option (ℤ × List Char) :=
  if (parseExpSign cs).2.takeWhile Char.isDigit = [] then none
  else some
    ((if (parseExpSign cs).1 then -(digitsVal ((parseExpSign cs).2.takeWhile Char.isDigit) : ℤ)
      else (digitsVal ((parseExpSign cs).2.takeWhile Char.isDigit) : ℤ)),
      (parseExpSign cs).2.dropWhile Char.isDigit)

/-- Optional exponent part of a JSON number. -/
def parseExpPart : List Char → Option (ℤ × List Char)
  | [] => some (0, [])
  | c :: r => if c = 'e' ∨ c = 'E' then parseExpTail r else some (0, c :: r)

/-- A JSON number, kept exactly as written: signed decimal mantissa `m` and
decimal exponent `e`, denoting `m * 10 ^ e`. -/
def parseNumber (cs : List Char) : Option ((ℤ × ℤ) × List Char) :=
  match parseIntPart (parseSign cs).2 with
  | none => none
  | some (ip, cs2) =>
    match parseFracPart cs2 with
    | none => none
    | some (fv, fl, cs3) =>
      match parseExpPart cs3 with
      | none => none
      | some (e, cs4) =>
        some (((if (parseSign cs).1 then -(ip * 10 ^ fl + fv : ℕ) else (ip * 10 ^ fl + fv : ℕ)),
          e - fl), cs4)

mutual

/-- JSON value parser (with `parsePairs` and `parseElems` for object members
and array elements).  The fuel argument bounds the nesting depth; `jsonParse`
supplies `length + 1`, which always suffices because every recursive descent
first consumes at least one character. -/
def parseVal : ℕ → List Char → Option (Json × List Char)
  | 0, _ => none
  | f + 1, cs =>
    match skipWs cs with
    | 'n' :: 'u' :: 'l' :: 'l' :: rest => some (Json.null, rest)
    | 't' :: 'r' :: 'u' :: 'e' :: rest => some (Json.bool true, rest)
    | 'f' :: 'a' :: 'l' :: 's' :: 'e' :: rest => some (Json.bool false, rest)
    | '"' :: rest => (parseStringBody rest).map fun sr => (Json.str sr.1, sr.2)
    | '\x7b' :: rest =>
      match skipWs rest with
      | '\x7d' :: r2 => some (Json.obj JsonKVs.nil, r2)
      | _ => (parsePairs f rest).map fun kr => (Json.obj kr.1, kr.2)
    | '[' :: rest =>
      match skipWs rest with
      | ']' :: r2 => some (Json.arr JsonList.nil, r2)
      | _ => (parseElems f rest).map fun xr => (Json.arr xr.1, xr.2)
    | rest => (parseNumber rest).map fun qr => (Json.num qr.1.1 qr.1.2, qr.2)

def parsePairs : ℕ → List Char → Option (JsonKVs × List Char)
  | 0, _ => none
  | f + 1, cs =>
    match skipWs cs with
    | '"' :: rest =>
      match parseStringBody rest with
      | none => none
      | some (k, r1) =>
        match skipWs r1 with
        | ':' :: r2 =>
          match parseVal f r2 with
          | none => none
          | some (v, r3) =>
            match skipWs r3 with
            | ',' :: r4 =>
              match parsePairs f r4 with
              | none => none
              | some (kvs, r) => some (JsonKVs.cons k v kvs, r)
            | '\x7d' :: r4 => some (JsonKVs.cons k v JsonKVs.nil, r4)
            | _ => none
        | _ => none
    | _ => none

def parseElems : ℕ → List Char → Option (JsonList × List Char)
  | 0, _ => none
  | f + 1, cs =>
    match parseVal f cs with
    | none => none
    | some (v, r1) =>
      match skipWs r1 with
      | ',' :: r2 =>
        match parseElems f r2 with
        | none => none
        | some (xs, r) => some (JsonList.cons v xs, r)
      | ']' :: r2 => some (JsonList.cons v JsonList.nil, r2)
      | _ => none

end

/-- Model of the `JSON.parse` builtin: parse one JSON value surrounded only by
whitespace.  The input is trimmed first, which is semantically transparent
(`JSON.parse` ignores surrounding whitespace) and makes the model literally
invariant under `trim`. -/
def jsonParse (cs : List Char) : Option Json :=
  let t := trim cs
  match parseVal (t.length + 1) t with
  | some (v, rest) => if skipWs rest = [] then some v else none
  | none => none

/-- The boundary pattern `'\x7d\n\x7b'` searched first (server.js 59, 64). -/
def nlPat : List Char := ['\x7d', '\n', '\x7b']

/-- The boundary pattern `'\x7d\x7b'` searched second (server.js 59, 64). -/
def brPat : List Char := ['\x7d', '\x7b']

/-- `String.prototype.indexOf` restricted to these patterns: index of the
first occurrence, if any. -/
def firstIdx (pat : List Char) : List Char → Option ℕ
  | [] => if pat.isPrefixOf ([] : List Char) then some 0 else none
  | c :: cs => if pat.isPrefixOf (c :: cs) then some 0 else (firstIdx pat cs).map (· + 1)

/-- `tryParseAndSend` (server.js 87-111) as a record producer: trim, drop the
empty string, parse; `none` models the silently swallowed parse failure. -/
def tryParseAndSend (jsonStr : List Char) : Option Json :=
  let cleanStr := trim jsonStr
  if cleanStr = [] then none
  else jsonParse cleanStr

/-- One pass of the boundary-splitting `while` loop (server.js 59-70), with
explicit fuel: the loop condition finds `'\x7d\n\x7b'` or, failing that,
`'\x7d\x7b'`; the split point is one past the index of `'\x7d\n\x7b'` whenever
that pattern is present anywhere, else one past the index of `'\x7d\x7b'`; the
left slice is trimmed and offered to `tryParseAndSend`, the trimmed right
slice becomes the buffer. -/
def splitLoopF : ℕ → List Char → List Char × List Json
  | 0, buf => (buf, [])
  | f + 1, buf =>
    match firstIdx nlPat buf with
    | some i =>
      let r := splitLoopF f (trim (buf.drop (i + 1)))
      (r.1, (tryParseAndSend (trim (buf.take (i + 1)))).toList ++ r.2)
    | none =>
      match firstIdx brPat buf with
      | some i =>
        let r := splitLoopF f (trim (buf.drop (i + 1)))
        (r.1, (tryParseAndSend (trim (buf.take (i + 1)))).toList ++ r.2)
      | none => (buf, [])

/-- The boundary-splitting loop run to completion.  Each iteration strictly
shortens the buffer (the split point is at least 1), so `length + 1` fuel is
always enough. -/
def splitLoop (buf : List Char) : List Char × List Json := splitLoopF (buf.length + 1) buf

/-- The whole `'data'` handler (server.js 51-85): append the chunk, drain the
boundary loop, then — if the trimmed remainder ends in `'\x7d'` and parses —
emit it and clear the buffer. -/
def processData (buf data : List Char) : List Char × List Json :=
  let r := splitLoop (buf ++ data)
  if ['\x7d'].isSuffixOf (trim r.1) && (jsonParse r.1).isSome then
    ([], r.2 ++ (tryParseAndSend r.1).toList)
  else r

/-- A sequence of `'data'` events, accumulating emitted records in order. -/
def runChunks : List Char → List (List Char) → List Char × List Json
  | buf, [] => (buf, [])
  | buf, c :: cs =>
    let r1 := processData buf c
    let r2 := runChunks r1.1 cs
    (r2.1, r1.2 ++ r2.2)

/-- Modelled from the spec: the boundary-selection rule as the design document
states it — split at the first occurrence of either pattern, with
`'\x7d\n\x7b'` winning only when it sits at the same or an earlier position
than `'\x7d\x7b'`. -/
def splitLoopSpecF : ℕ → List Char → List Char × List Json
  | 0, buf => (buf, [])
  | f + 1, buf =>
    match firstIdx nlPat buf, firstIdx brPat buf with
    | some i, some j =>
      let sp := if i ≤ j then i + 1 else j + 1
      let r := splitLoopSpecF f (trim (buf.drop sp))
      (r.1, (tryParseAndSend (trim (buf.take sp))).toList ++ r.2)
    | some i, none =>
      let r := splitLoopSpecF f (trim (buf.drop (i + 1)))
      (r.1, (tryParseAndSend (trim (buf.take (i + 1)))).toList ++ r.2)
    | none, some j =>
      let r := splitLoopSpecF f (trim (buf.drop (j + 1)))
      (r.1, (tryParseAndSend (trim (buf.take (j + 1)))).toList ++ r.2)
    | none, none => (buf, [])

/-- Modelled from the spec: `processData` with the claimed earliest-boundary
splitting rule. -/
def processDataSpec (buf data : List Char) : List Char × List Json :=
  let r := splitLoopSpecF ((buf ++ data).length + 1) (buf ++ data)
  if ['\x7d'].isSuffixOf (trim r.1) && (jsonParse r.1).isSome then
    ([], r.2 ++ (tryParseAndSend r.1).toList)
  else r

/-! ### Relay / fan-out model -/

/-- A WebSocket client as the relay sees it: identity plus whether
`readyState === WebSocket.OPEN`. -/
structure Client where
  cid : ℕ
  readyState : Bool
  deriving DecidableEq

/-- The externally visible events driving the server: a client connecting
(`wss.on('connection')`), a client's transport opening/closing, and a chunk of
sensor bytes (`sensorProcess.stdout.on('data')`). -/
inductive ServerEvent where
  | register (cid : ℕ)
  | setReady (cid : ℕ) (b : Bool)
  | chunk (data : List Char)

/-- Server state: framer buffer, current `wss.clients`, and the log of
`client.send` calls performed so far, in order. -/
structure ServerState where
  buffer : List Char
  clients : List Client
  deliveries : List (ℕ × Json)

/-- Broadcast of one record (server.js 101-107): every currently registered
client whose transport is open receives it; the rest are skipped. -/
def broadcast (r : Json) (cs : List Client) : List (ℕ × Json) :=
  (cs.filter fun c => c.readyState).map fun c => (c.cid, r)

/-- One server event. -/
def serverStep (st : ServerState) : ServerEvent → ServerState
  | ServerEvent.register i => { st with clients := st.clients ++ [⟨i, true⟩] }
  | ServerEvent.setReady i b =>
    { st with clients := st.clients.map fun c => if c.cid = i then ⟨c.cid, b⟩ else c }
  | ServerEvent.chunk d =>
    let r := processData st.buffer d
    { st with
      buffer := r.1,
      deliveries := st.deliveries ++ r.2.flatMap fun v => broadcast v st.clients }

/-- Run the server from its initial state. -/
def serverRun (es : List ServerEvent) : ServerState := es.foldl serverStep ⟨[], [], []⟩

/-! ### Concrete records used by the framer claims -/

/-- The literal record text `\x7b"a":1\x7d`. -/
def recA : List Char := ['\x7b', '"', 'a', '"', ':', '1', '\x7d']

/-- The literal record text `\x7b"b":2\x7d`. -/
def recB : List Char := ['\x7b', '"', 'b', '"', ':', '2', '\x7d']

/-- The literal record text `\x7b"c":3\x7d`. -/
def recC : List Char := ['\x7b', '"', 'c', '"', ':', '3', '\x7d']

/-- The two concatenated records with no separator. -/
def sAB : List Char := recA ++ recB

/-- Three records: the first two with no separator, the third after a
newline — so `'\x7d\x7b'` occurs strictly before `'\x7d\n\x7b'`. -/
def tNL : List Char := recA ++ recB ++ '\n' :: recC

/-- The parsed value of `recA`. -/
def jA : Json := Json.obj (JsonKVs.cons ['a'] (Json.num 1 0) JsonKVs.nil)

/-- The parsed value of `recB`. -/
def jB : Json := Json.obj (JsonKVs.cons ['b'] (Json.num 2 0) JsonKVs.nil)

/-- The parsed value of `recC`. -/
def jC : Json := Json.obj (JsonKVs.cons ['c'] (Json.num 3 0) JsonKVs.nil)

/-- Expected framer buffer after `n` total bytes of `sAB` have arrived. -/
def abBuf (n : ℕ) : List Char :=
  if n < 7 then sAB.take n else if n < 14 then (sAB.take n).drop 7 else []

/-- Records emitted while the byte count of `sAB` grows from `n` to `m`. -/
def abEmit (n m : ℕ) : List Json :=
  (if n < 7 ∧ 7 ≤ m then [jA] else []) ++ (if n < 14 ∧ 14 ≤ m then [jB] else [])

/-! ### Concrete estimator inputs used by witnesses and counterexamples -/

/-- An estimator state with identity rotation, velocity `(8,8,8)` and
`lastUpdate = 1000`. -/
def zvuCState : ControllerState := ⟨⟨0, 0, 0⟩, ⟨0, 0, 0, 1⟩, ⟨8, 8, 8⟩, 1000⟩

/-- An acceleration sample whose world-frame `x` axis, after gravity
subtraction, lands in `[0.1, 0.2)`. -/
def zvuCAccel : Vec3 := ⟨0.15, 9.81, 0⟩

/-- The zero vector (also the zero gyro sample). -/
def vZero : Vec3 := ⟨0, 0, 0⟩

/-- An estimator state with identity rotation, velocity `(2,0,0)` and
`lastUpdate = 1000`. -/
def zvuWState : ControllerState := ⟨⟨0, 0, 0⟩, ⟨0, 0, 0, 1⟩, ⟨2, 0, 0⟩, 1000⟩

/-- An acceleration sample with a large world-frame `x` component. -/
def zvuWAccel : Vec3 := ⟨5, 9.81, 0⟩

/-- A state with nonzero position/velocity history and `lastUpdate = 1000`. -/
def guardWState : ControllerState := ⟨⟨1, 2, 3⟩, ⟨0, 0, 0, 1⟩, ⟨4, 5, 6⟩, 1000⟩

/-- An identity-pose state with `lastUpdate = 1000`. -/
def orientWState : ControllerState := ⟨⟨0, 0, 0⟩, ⟨0, 0, 0, 1⟩, ⟨0, 0, 0⟩, 1000⟩

/-! ## Theorems -/

namespace PhysicsEngine

lemma multiplyQuaternions_eq_hamiltonMul (q1 q2 : Quat) :
    multiplyQuaternions q1 q2 = hamiltonMul q1 q2 := by
  simp only [multiplyQuaternions, hamiltonMul]
  congr 1 <;> ring

lemma normSq_nonneg (q : Quat) : 0 ≤ normSq q := by
  simp only [normSq]; positivity

lemma normSq_mul (q1 q2 : Quat) :
    normSq (multiplyQuaternions q1 q2) = normSq q1 * normSq q2 := by
  simp only [multiplyQuaternions, normSq]
  ring

lemma normSq_qNormalize {q : Quat} (h : 0 < normSq q) : normSq (qNormalize q) = 1 := by
  have hs : Real.sqrt (normSq q) ^ 2 = normSq q := Real.sq_sqrt (le_of_lt h)
  have hne : normSq q ≠ 0 := ne_of_gt h
  simp only [qNormalize, normSq] at hs ⊢
  rw [div_pow, div_pow, div_pow, div_pow, div_add_div_same, div_add_div_same,
    div_add_div_same, hs]
  exact div_self hne

lemma smallAngleDQ_normSq_pos (gyro : Vec3) (dt : ℝ) : 0 < normSq (smallAngleDQ gyro dt) := by
  simp only [smallAngleDQ, normSq]
  positivity

lemma rotationAfter_unit {s : ControllerState} (gyro : Vec3) (t : ℝ)
    (h : normSq s.rotation = 1) : normSq (rotationAfter s gyro t) = 1 := by
  have hdq : normSq (qNormalize (smallAngleDQ gyro (dtOf s t))) = 1 :=
    normSq_qNormalize (smallAngleDQ_normSq_pos _ _)
  apply normSq_qNormalize
  rw [normSq_mul, h, hdq]
  norm_num

lemma update_of_guard {s : ControllerState} (accel gyro : Vec3) (t : ℝ)
    (h : dtOf s t ≤ 0 ∨ 1 < dtOf s t) :
    update s accel gyro t = { s with lastUpdate := t } := by
  simp only [update]
  rw [if_pos (Or.symm h)]

lemma update_of_accepted {s : ControllerState} (accel gyro : Vec3) (t : ℝ)
    (h1 : 0 < dtOf s t) (h2 : dtOf s t ≤ 1) :
    update s accel gyro t =
      { position :=
          ⟨s.position.x + (zvuHalve (deadZone (worldAccelPre s accel gyro t))
              (dampedVelocity s accel gyro t)).x * dtOf s t * SCALE_FACTOR,
           s.position.y + (zvuHalve (deadZone (worldAccelPre s accel gyro t))
              (dampedVelocity s accel gyro t)).y * dtOf s t * SCALE_FACTOR,
           s.position.z + (zvuHalve (deadZone (worldAccelPre s accel gyro t))
              (dampedVelocity s accel gyro t)).z * dtOf s t * SCALE_FACTOR⟩,
        rotation := rotationAfter s gyro t,
        velocity := zvuHalve (deadZone (worldAccelPre s accel gyro t))
          (dampedVelocity s accel gyro t),
        lastUpdate := t } := by
  simp only [update]
  rw [if_neg]
  push_neg
  exact ⟨h2, h1⟩

lemma update_rotation_unit {s : ControllerState} (accel gyro : Vec3) (t : ℝ)
    (h : normSq s.rotation = 1) : normSq (update s accel gyro t).rotation = 1 := by
  by_cases hg : dtOf s t ≤ 0 ∨ 1 < dtOf s t
  · rw [update_of_guard accel gyro t hg]
    exact h
  · push_neg at hg
    rw [update_of_accepted accel gyro t hg.1 hg.2]
    exact rotationAfter_unit gyro t h

lemma applyCalls_rotation_unit (calls : List (Vec3 × Vec3 × ℝ)) :
    ∀ s : ControllerState, normSq s.rotation = 1 →
      normSq (applyCalls s calls).rotation = 1 := by
  induction calls with
  | nil => intro s h; exact h
  | cons c rest ih =>
    intro s h
    obtain ⟨a, g, t⟩ := c
    exact ih _ (update_rotation_unit a g t h)

lemma normSq_identityQuat : normSq ⟨0, 0, 0, 1⟩ = 1 := by
  simp only [normSq]; norm_num

/-- Claim C1: after any finite sequence of `update` calls the rotation
quaternion has unit Euclidean norm (so in particular it is within the `1e-6`
tolerance of 1), and both the constructor and `reset` establish this with the
identity quaternion. -/
theorem quat_unit_norm_invariant :
    normSq constructState.rotation = 1 ∧
    (∀ (s : ControllerState) (now : ℝ), normSq (reset s now).rotation = 1) ∧
    (∀ calls : List (Vec3 × Vec3 × ℝ),
      normSq (applyCalls constructState calls).rotation = 1 ∧
      |Real.sqrt (normSq (applyCalls constructState calls).rotation) - 1| ≤ 1e-6) ∧
    (∀ (s0 : ControllerState) (now : ℝ) (calls : List (Vec3 × Vec3 × ℝ)),
      normSq (applyCalls (reset s0 now) calls).rotation = 1) := by
  have hc : normSq constructState.rotation = 1 := normSq_identityQuat
  refine ⟨hc, fun s now => normSq_identityQuat, fun calls => ?_, fun s0 now calls =>
    applyCalls_rotation_unit calls _ normSq_identityQuat⟩
  have h1 : normSq (applyCalls constructState calls).rotation = 1 :=
    applyCalls_rotation_unit calls _ hc
  refine ⟨h1, ?_⟩
  rw [h1, Real.sqrt_one]
  norm_num

/-- Claim C3: whenever the computed `dt` fails the guard (`dt ≤ 0` or
`dt > 1`), `update` leaves position, velocity and rotation exactly unchanged
while still advancing `lastUpdate` to the given timestamp; the embedding is a
total function, so no error reaches the caller. -/
theorem dt_guard_frame_effect (s : ControllerState) (accel gyro : Vec3) (t : ℝ)
    (h : dtOf s t ≤ 0 ∨ 1 < dtOf s t) :
    update s accel gyro t = { s with lastUpdate := t } :=
  update_of_guard accel gyro t h

/-- Witness for C3 at a concrete stale timestamp (`dt = 4 > 1`). -/
theorem dt_guard_frame_effect_witness :
    (dtOf guardWState 5000 ≤ 0 ∨ 1 < dtOf guardWState 5000) ∧
    update guardWState vZero vZero 5000 = { guardWState with lastUpdate := 5000 } := by
  have h : dtOf guardWState 5000 ≤ 0 ∨ 1 < dtOf guardWState 5000 := by
    right; norm_num [dtOf, guardWState]
  exact ⟨h, dt_guard_frame_effect guardWState vZero vZero 5000 h⟩

/-- Claim C4: on an accepted update the new rotation is
`normalize (oldRotation ⊗ dq)` under the Hamilton product, where `dq` is the
unit-normalized small-angle quaternion `(gx·dt/2, gy·dt/2, gz·dt/2, 1)`. -/
theorem orientation_update_hamilton (s : ControllerState) (accel gyro : Vec3) (t : ℝ)
    (h1 : 0 < dtOf s t) (h2 : dtOf s t ≤ 1) :
    (update s accel gyro t).rotation =
      qNormalize (hamiltonMul s.rotation
        (qNormalize ⟨gyro.x * dtOf s t / 2, gyro.y * dtOf s t / 2, gyro.z * dtOf s t / 2, 1⟩)) := by
  rw [update_of_accepted accel gyro t h1 h2]
  show rotationAfter s gyro t = _
  rw [rotationAfter, multiplyQuaternions_eq_hamiltonMul]
  have hdq : smallAngleDQ gyro (dtOf s t) =
      ⟨gyro.x * dtOf s t / 2, gyro.y * dtOf s t / 2, gyro.z * dtOf s t / 2, 1⟩ := by
    simp only [smallAngleDQ]
    congr 1 <;> ring
  rw [hdq]

/-- Witness for C4 at `dt = 1/2` with gyro sample `(1,2,3)`. -/
theorem orientation_update_hamilton_witness :
    (0 < dtOf orientWState 1500 ∧ dtOf orientWState 1500 ≤ 1) ∧
    (update orientWState vZero ⟨1, 2, 3⟩ 1500).rotation =
      qNormalize (hamiltonMul orientWState.rotation
        (qNormalize ⟨(1 : ℝ) * dtOf orientWState 1500 / 2, 2 * dtOf orientWState 1500 / 2,
          3 * dtOf orientWState 1500 / 2, 1⟩)) := by
  have h1 : 0 < dtOf orientWState 1500 := by norm_num [dtOf, orientWState]
  have h2 : dtOf orientWState 1500 ≤ 1 := by norm_num [dtOf, orientWState]
  exact ⟨⟨h1, h2⟩, orientation_update_hamilton orientWState vZero ⟨1, 2, 3⟩ 1500 h1 h2⟩

lemma smallAngleDQ_zero (dt : ℝ) : smallAngleDQ vZero dt = ⟨0, 0, 0, 1⟩ := by
  simp [smallAngleDQ, vZero]

lemma qNormalize_id : qNormalize ⟨0, 0, 0, 1⟩ = ⟨0, 0, 0, 1⟩ := by
  have h : normSq ⟨0, 0, 0, 1⟩ = 1 := normSq_identityQuat
  simp only [qNormalize, h, Real.sqrt_one]
  norm_num

lemma multiplyQuaternions_id_id :
    multiplyQuaternions ⟨0, 0, 0, 1⟩ ⟨0, 0, 0, 1⟩ = ⟨0, 0, 0, 1⟩ := by
  simp only [multiplyQuaternions]
  norm_num

lemma rotationAfter_id_zero (s : ControllerState) (t : ℝ) (h : s.rotation = ⟨0, 0, 0, 1⟩) :
    rotationAfter s vZero t = ⟨0, 0, 0, 1⟩ := by
  rw [rotationAfter, h, smallAngleDQ_zero, qNormalize_id, multiplyQuaternions_id_id,
    qNormalize_id]

lemma applyQuaternion_id (v : Vec3) : applyQuaternion v ⟨0, 0, 0, 1⟩ = v := by
  cases v
  simp only [applyQuaternion]
  congr 1 <;> ring

lemma worldAccelPre_cval : worldAccelPre zvuCState zvuCAccel vZero 2000 = ⟨0.15, 0, 0⟩ := by
  have hr : rotationAfter zvuCState vZero 2000 = ⟨0, 0, 0, 1⟩ :=
    rotationAfter_id_zero _ _ rfl
  simp only [worldAccelPre, hr, applyQuaternion_id, zvuCAccel, GRAVITY]
  norm_num

lemma abs_cval_deadzone : |(0.15 : ℝ)| < 0.2 := by
  rw [abs_of_nonneg (by norm_num)]
  norm_num

lemma abs_zero_small : |(0 : ℝ)| < 0.2 := by
  rw [abs_zero]; norm_num

lemma deadZone_cval : deadZone (⟨0.15, 0, 0⟩ : Vec3) = ⟨0, 0, 0⟩ := by
  simp only [deadZone, ite_self]
  rw [if_pos abs_cval_deadzone]

lemma dtOf_cval : dtOf zvuCState 2000 = 1 := by
  norm_num [dtOf, zvuCState]

lemma dampedVelocity_cval :
    dampedVelocity zvuCState zvuCAccel vZero 2000 = ⟨7.6, 7.6, 7.6⟩ := by
  simp only [dampedVelocity, worldAccelPre_cval, deadZone_cval, dtOf_cval]
  simp only [zvuCState, FRICTION]
  norm_num

lemma update_velocity_cval :
    (update zvuCState zvuCAccel vZero 2000).velocity = ⟨3.8, 3.8, 3.8⟩ := by
  rw [update_of_accepted zvuCAccel vZero 2000 (by rw [dtOf_cval]; norm_num)
    (by rw [dtOf_cval])]
  show zvuHalve (deadZone (worldAccelPre zvuCState zvuCAccel vZero 2000))
    (dampedVelocity zvuCState zvuCAccel vZero 2000) = _
  rw [worldAccelPre_cval, deadZone_cval, dampedVelocity_cval]
  have h0 : |(0 : ℝ)| < 0.1 := by rw [abs_zero]; norm_num
  show zvuHalve ⟨0, 0, 0⟩ ⟨7.6, 7.6, 7.6⟩ = ⟨3.8, 3.8, 3.8⟩
  simp only [zvuHalve]
  rw [if_pos ⟨h0, h0, h0⟩]
  norm_num

/-- Claim C2 counterexample: in the accepted update from `zvuCState` with
acceleration `(0.15, 9.81, 0)` and zero gyro, the pre-dead-zone world
acceleration has `x`-magnitude `0.15 ∈ [0.1, 0.2)`, yet the resulting velocity
is the *halved* damped velocity (`3.8` per axis, not `7.6`): the extra halving
is applied, contradicting the claim that it must not be. -/
theorem zvu_pre_deadzone_counterexample :
    (0.1 ≤ |(worldAccelPre zvuCState zvuCAccel vZero 2000).x| ∧
      |(worldAccelPre zvuCState zvuCAccel vZero 2000).x| < 0.2) ∧
    (0 < dtOf zvuCState 2000 ∧ dtOf zvuCState 2000 ≤ 1) ∧
    (update zvuCState zvuCAccel vZero 2000).velocity.x = 3.8 ∧
    (dampedVelocity zvuCState zvuCAccel vZero 2000).x = 7.6 ∧
    (3.8 : ℝ) ≠ 7.6 := by
  refine ⟨?_, ?_, ?_, ?_, by norm_num⟩
  · rw [worldAccelPre_cval]
    show 0.1 ≤ |(0.15 : ℝ)| ∧ |(0.15 : ℝ)| < 0.2
    rw [abs_of_nonneg (by norm_num)]
    constructor <;> norm_num
  · rw [dtOf_cval]; norm_num
  · rw [update_velocity_cval]
  · rw [dampedVelocity_cval]

lemma abs_deadZone_axis (a : ℝ) : |if |a| < 0.2 then (0 : ℝ) else a| < 0.1 ↔ |a| < 0.2 := by
  by_cases h : |a| < 0.2
  · rw [if_pos h, abs_zero]
    exact iff_of_true (by norm_num) h
  · rw [if_neg h]
    push_neg at h
    exact iff_of_false (by push_neg; linarith) (not_lt.mpr h)

/-- Claim C2 (amended): in an accepted update the extra velocity halving is
applied exactly when the *post*-dead-zone world acceleration has magnitude
below `0.1` on every axis — equivalently, exactly when every axis of the
*pre*-dead-zone world acceleration has magnitude below `0.2` (an axis in
`[0.1, 0.2)` is clamped to zero by the dead zone and therefore does not
prevent the halving). -/
theorem zvu_condition_post_deadzone (s : ControllerState) (accel gyro : Vec3) (t : ℝ)
    (h1 : 0 < dtOf s t) (h2 : dtOf s t ≤ 1) :
    (update s accel gyro t).velocity =
      if |(worldAccelPre s accel gyro t).x| < 0.2 ∧ |(worldAccelPre s accel gyro t).y| < 0.2 ∧
          |(worldAccelPre s accel gyro t).z| < 0.2 then
        ⟨(dampedVelocity s accel gyro t).x * 0.5, (dampedVelocity s accel gyro t).y * 0.5,
         (dampedVelocity s accel gyro t).z * 0.5⟩
      else dampedVelocity s accel gyro t := by
  rw [update_of_accepted accel gyro t h1 h2]
  show zvuHalve (deadZone (worldAccelPre s accel gyro t)) (dampedVelocity s accel gyro t) = _
  simp only [zvuHalve, deadZone]
  refine if_congr ?_ rfl rfl
  exact and_congr (abs_deadZone_axis _)
    (and_congr (abs_deadZone_axis _) (abs_deadZone_axis _))

/-- Witness for the amended C2 at a concrete accepted update whose `x` axis
exceeds the dead zone. -/
theorem zvu_condition_post_deadzone_witness :
    (0 < dtOf zvuWState 2000 ∧ dtOf zvuWState 2000 ≤ 1) ∧
    (update zvuWState zvuWAccel vZero 2000).velocity =
      (if |(worldAccelPre zvuWState zvuWAccel vZero 2000).x| < 0.2 ∧
          |(worldAccelPre zvuWState zvuWAccel vZero 2000).y| < 0.2 ∧
          |(worldAccelPre zvuWState zvuWAccel vZero 2000).z| < 0.2 then
        ⟨(dampedVelocity zvuWState zvuWAccel vZero 2000).x * 0.5,
         (dampedVelocity zvuWState zvuWAccel vZero 2000).y * 0.5,
         (dampedVelocity zvuWState zvuWAccel vZero 2000).z * 0.5⟩
      else dampedVelocity zvuWState zvuWAccel vZero 2000) := by
  have h1 : 0 < dtOf zvuWState 2000 := by norm_num [dtOf, zvuWState]
  have h2 : dtOf zvuWState 2000 ≤ 1 := by norm_num [dtOf, zvuWState]
  exact ⟨⟨h1, h2⟩, zvu_condition_post_deadzone zvuWState zvuWAccel vZero 2000 h1 h2⟩

/-- Claim C7: `reset` installs the identity pose — zero position, zero
velocity, identity quaternion — with `lastUpdate` the current time, for every
prior state (all history is discarded: the result does not depend on `s`). -/
theorem reset_identity (s : ControllerState) (now : ℝ) :
    reset s now =
      { position := ⟨0, 0, 0⟩, rotation := ⟨0, 0, 0, 1⟩, velocity := ⟨0, 0, 0⟩,
        lastUpdate := now } := rfl

/-- Claim C10: the constructor sets `lastUpdate = 0`, and because `update`
reads `lastUpdate || now`, the first call after construction always computes
`dt = 0`, is rejected by the guard, and only records the timestamp. -/
theorem first_update_dropped :
    constructState.lastUpdate = 0 ∧
    ∀ (accel gyro : Vec3) (t : ℝ),
      update constructState accel gyro t = { constructState with lastUpdate := t } := by
  refine ⟨rfl, fun a g t => ?_⟩
  apply update_of_guard
  left
  simp only [dtOf, constructState]
  norm_num

end PhysicsEngine

/-! ### Framer lemmas -/

lemma firstIdx_bound {pat : List Char} :
    ∀ {cs : List Char} {i : ℕ}, firstIdx pat cs = some i → i + pat.length ≤ cs.length := by
  intro cs
  induction cs with
  | nil =>
    intro i h
    simp only [firstIdx] at h
    split at h
    · rename_i hp
      cases h
      have := List.isPrefixOf_iff_prefix.mp hp
      simpa using List.IsPrefix.length_le this
    · cases h
  | cons c cs ih =>
    intro i h
    simp only [firstIdx] at h
    split at h
    · rename_i hp
      cases h
      have := List.IsPrefix.length_le (List.isPrefixOf_iff_prefix.mp hp)
      simpa using this
    · rw [Option.map_eq_some'] at h
      obtain ⟨j, hj, rfl⟩ := h
      have := ih hj
      simp only [List.length_cons]
      omega

lemma trim_length_le (cs : List Char) : (trim cs).length ≤ cs.length := by
  unfold trim skipWs
  calc (((cs.reverse.dropWhile isWs).reverse).dropWhile isWs).length
      ≤ ((cs.reverse.dropWhile isWs).reverse).length :=
        List.Sublist.length_le (List.dropWhile_sublist _)
    _ = (cs.reverse.dropWhile isWs).length := List.length_reverse _
    _ ≤ cs.reverse.length := List.Sublist.length_le (List.dropWhile_sublist _)
    _ = cs.length := List.length_reverse _

lemma splitLoopF_succ_nl (f : ℕ) {buf : List Char} {i : ℕ}
    (h : firstIdx nlPat buf = some i) :
    splitLoopF (f + 1) buf =
      ((splitLoopF f (trim (buf.drop (i + 1)))).1,
        (tryParseAndSend (trim (buf.take (i + 1)))).toList ++
          (splitLoopF f (trim (buf.drop (i + 1)))).2) := by
  simp only [splitLoopF, h]

lemma splitLoopF_succ_br (f : ℕ) {buf : List Char} {i : ℕ}
    (hn : firstIdx nlPat buf = none) (h : firstIdx brPat buf = some i) :
    splitLoopF (f + 1) buf =
      ((splitLoopF f (trim (buf.drop (i + 1)))).1,
        (tryParseAndSend (trim (buf.take (i + 1)))).toList ++
          (splitLoopF f (trim (buf.drop (i + 1)))).2) := by
  simp only [splitLoopF, h, hn]

lemma splitLoopF_succ_none (f : ℕ) {buf : List Char}
    (hn : firstIdx nlPat buf = none) (hb : firstIdx brPat buf = none) :
    splitLoopF (f + 1) buf = (buf, []) := by
  simp only [splitLoopF, hn, hb]

lemma trim_drop_lt_nl {buf : List Char} {i : ℕ} (h : firstIdx nlPat buf = some i) :
    (trim (buf.drop (i + 1))).length < buf.length := by
  have hb := firstIdx_bound h
  have h1 := trim_length_le (buf.drop (i + 1))
  have h2 : (buf.drop (i + 1)).length = buf.length - (i + 1) := List.length_drop _ _
  have h3 : nlPat.length = 3 := rfl
  rw [h3] at hb
  omega

lemma trim_drop_lt_br {buf : List Char} {i : ℕ} (h : firstIdx brPat buf = some i) :
    (trim (buf.drop (i + 1))).length < buf.length := by
  have hb := firstIdx_bound h
  have h1 := trim_length_le (buf.drop (i + 1))
  have h2 : (buf.drop (i + 1)).length = buf.length - (i + 1) := List.length_drop _ _
  have h3 : brPat.length = 2 := rfl
  rw [h3] at hb
  omega

lemma splitLoopF_irrel :
    ∀ f g : ℕ, ∀ buf : List Char, buf.length < f → buf.length < g →
      splitLoopF f buf = splitLoopF g buf := by
  intro f
  induction f with
  | zero => intro g buf hf; omega
  | succ f ih =>
    intro g buf hf hg
    match g, hg with
    | g + 1, hg =>
      cases hnl : firstIdx nlPat buf with
      | some i =>
        have hlen : (trim (buf.drop (i + 1))).length < buf.length := trim_drop_lt_nl hnl
        rw [splitLoopF_succ_nl f hnl, splitLoopF_succ_nl g hnl,
          ih g (trim (buf.drop (i + 1))) (by omega) (by omega)]
      | none =>
        cases hbr : firstIdx brPat buf with
        | some i =>
          have hlen : (trim (buf.drop (i + 1))).length < buf.length := trim_drop_lt_br hbr
          rw [splitLoopF_succ_br f hnl hbr, splitLoopF_succ_br g hnl hbr,
            ih g (trim (buf.drop (i + 1))) (by omega) (by omega)]
        | none => rw [splitLoopF_succ_none f hnl hbr, splitLoopF_succ_none g hnl hbr]

lemma splitLoop_eq_nl {buf : List Char} {i : ℕ} (h : firstIdx nlPat buf = some i) :
    splitLoop buf =
      ((splitLoop (trim (buf.drop (i + 1)))).1,
        (tryParseAndSend (trim (buf.take (i + 1)))).toList ++
          (splitLoop (trim (buf.drop (i + 1)))).2) := by
  have hlen : (trim (buf.drop (i + 1))).length < buf.length := trim_drop_lt_nl h
  show splitLoopF (buf.length + 1) buf = _
  rw [splitLoopF_succ_nl buf.length h,
    splitLoopF_irrel buf.length ((trim (buf.drop (i + 1))).length + 1) _ (by omega) (by omega)]
  rfl

lemma splitLoop_eq_br {buf : List Char} {i : ℕ} (hn : firstIdx nlPat buf = none)
    (h : firstIdx brPat buf = some i) :
    splitLoop buf =
      ((splitLoop (trim (buf.drop (i + 1)))).1,
        (tryParseAndSend (trim (buf.take (i + 1)))).toList ++
          (splitLoop (trim (buf.drop (i + 1)))).2) := by
  have hlen : (trim (buf.drop (i + 1))).length < buf.length := trim_drop_lt_br h
  show splitLoopF (buf.length + 1) buf = _
  rw [splitLoopF_succ_br buf.length hn h,
    splitLoopF_irrel buf.length ((trim (buf.drop (i + 1))).length + 1) _ (by omega) (by omega)]
  rfl

lemma splitLoop_eq_none {buf : List Char} (hn : firstIdx nlPat buf = none)
    (hb : firstIdx brPat buf = none) : splitLoop buf = (buf, []) := by
  show splitLoopF (buf.length + 1) buf = _
  rw [splitLoopF_succ_none buf.length hn hb]

/-! ### C6 machinery: chunk-split tolerance for the two-record input -/

set_option maxHeartbeats 4000000 in
lemma processData_abStep : ∀ n < 15, ∀ m < 15, n ≤ m →
    processData (abBuf n) ((sAB.take m).drop n) = (abBuf m, abEmit n m) := by decide

lemma abEmit_comp : ∀ n < 15, ∀ m < 15, n ≤ m →
    abEmit n m ++ abEmit m 14 = abEmit n 14 := by decide

lemma runChunks_abInv :
    ∀ (chunks : List (List Char)) (n : ℕ), n ≤ 14 → chunks.flatten = sAB.drop n →
      runChunks (abBuf n) chunks = ([], abEmit n 14) := by
  intro chunks
  induction chunks with
  | nil =>
    intro n hn hj
    have hlen : sAB.length = 14 := by decide
    have h0 : (sAB.drop n).length = 0 := by rw [← hj]; rfl
    rw [List.length_drop, hlen] at h0
    have h14 : n = 14 := by omega
    subst h14
    decide
  | cons c rest ih =>
    intro n hn hj
    rw [List.flatten_cons] at hj
    have hlen : sAB.length = 14 := by decide
    have hcl : c.length ≤ 14 - n := by
      have h := congrArg List.length hj
      rw [List.length_append, List.length_drop, hlen] at h
      omega
    have hm : n + c.length ≤ 14 := by omega
    have hc : c = (sAB.take (n + c.length)).drop n := by
      rw [List.drop_take]
      have he : n + c.length - n = c.length := by omega
      rw [he, ← hj, List.take_left]
    have hrest : rest.flatten = sAB.drop (n + c.length) := by
      have h1 : (c ++ rest.flatten).drop c.length = rest.flatten := List.drop_left c rest.flatten
      rw [hj] at h1
      rw [← h1, List.drop_drop]
    have hstep := processData_abStep n (by omega) (n + c.length) (by omega) (by omega)
    rw [← hc] at hstep
    show ((runChunks (processData (abBuf n) c).1 rest).1,
      (processData (abBuf n) c).2 ++ (runChunks (processData (abBuf n) c).1 rest).2) =
      ([], abEmit n 14)
    rw [hstep]
    show ((runChunks (abBuf (n + c.length)) rest).1,
      abEmit n (n + c.length) ++ (runChunks (abBuf (n + c.length)) rest).2) = ([], abEmit n 14)
    rw [ih (n + c.length) hm hrest]
    show (([] : List Char), abEmit n (n + c.length) ++ abEmit (n + c.length) 14) =
      ([], abEmit n 14)
    rw [abEmit_comp n (by omega) (n + c.length) (by omega) (by omega)]

/-- Claim C5 counterexample: on the single-chunk input
`recA ++ recB ++ '\n' :: recC`, the first `'\x7d\x7b'` occurrence (index 6)
is strictly earlier than the first `'\x7d\n\x7b'` occurrence (index 13), so
the claimed earliest-boundary splitter would emit all three records — but the
code splits at the `'\x7d\n\x7b'` anyway, hands the unparseable left part
`recA ++ recB` to the parser (silently losing both records), and emits only
the third record. -/
theorem framer_boundary_counterexample :
    firstIdx brPat tNL = some 6 ∧ firstIdx nlPat tNL = some 13 ∧
    processData [] tNL = ([], [jC]) ∧
    processDataSpec [] tNL = ([], [jA, jB, jC]) ∧
    ([jC] : List Json) ≠ [jA, jB, jC] := by decide

/-- Claim C5 (amended): the splitting loop splits immediately after the
`'\x7d'` of the first `'\x7d\n\x7b'` occurrence whenever that pattern is
present anywhere in the buffer — regardless of whether a `'\x7d\x7b'` occurs
earlier — and only otherwise after the `'\x7d'` of the first `'\x7d\x7b'`; the
trimmed left part is the parse candidate and the trimmed right part becomes
the new buffer.  In particular the single-chunk input `recA ++ recB` (no
separator) emits exactly the records `jA` and `jB`, in order. -/
theorem framer_boundary_split :
    (∀ (buf : List Char) (i : ℕ), firstIdx nlPat buf = some i →
      splitLoop buf =
        ((splitLoop (trim (buf.drop (i + 1)))).1,
          (tryParseAndSend (trim (buf.take (i + 1)))).toList ++
            (splitLoop (trim (buf.drop (i + 1)))).2)) ∧
    (∀ (buf : List Char) (i : ℕ), firstIdx nlPat buf = none → firstIdx brPat buf = some i →
      splitLoop buf =
        ((splitLoop (trim (buf.drop (i + 1)))).1,
          (tryParseAndSend (trim (buf.take (i + 1)))).toList ++
            (splitLoop (trim (buf.drop (i + 1)))).2)) ∧
    processData [] sAB = ([], [jA, jB]) :=
  ⟨fun _ _ h => splitLoop_eq_nl h, fun _ _ hn h => splitLoop_eq_br hn h, by decide⟩

/-- Witness for the amended C5: the split equations evaluated at the concrete
buffers `tNL` (newline boundary at 13) and `sAB` (brace boundary at 6). -/
theorem framer_boundary_split_witness :
    (firstIdx nlPat tNL = some 13 ∧
      splitLoop tNL =
        ((splitLoop (trim (tNL.drop 14))).1,
          (tryParseAndSend (trim (tNL.take 14))).toList ++
            (splitLoop (trim (tNL.drop 14))).2)) ∧
    (firstIdx nlPat sAB = none ∧ firstIdx brPat sAB = some 6 ∧
      splitLoop sAB =
        ((splitLoop (trim (sAB.drop 7))).1,
          (tryParseAndSend (trim (sAB.take 7))).toList ++
            (splitLoop (trim (sAB.drop 7))).2)) ∧
    processData [] sAB = ([], [jA, jB]) :=
  ⟨⟨by decide, framer_boundary_split.1 tNL 13 (by decide)⟩,
   ⟨by decide, by decide, framer_boundary_split.2.1 sAB 6 (by decide) (by decide)⟩,
   framer_boundary_split.2.2⟩

/-- Claim C6: delivering the bytes of `sAB` (two records, no separator) split
across arbitrarily many chunks at arbitrary boundaries makes the framer emit
exactly the two records `jA` and `jB`, in order — the same emissions as
single-chunk delivery — and leaves an empty buffer. -/
theorem framer_chunk_split_tolerance (chunks : List (List Char))
    (h : chunks.flatten = sAB) :
    runChunks [] chunks = ([], [jA, jB]) := by
  have h0 : chunks.flatten = sAB.drop 0 := by rw [List.drop_zero]; exact h
  have := runChunks_abInv chunks 0 (by omega) h0
  have hb : abBuf 0 = ([] : List Char) := by decide
  have he : abEmit 0 14 = [jA, jB] := by decide
  rw [hb, he] at this
  exact this

/-- Witness for C6: byte-by-byte delivery of `sAB`. -/
theorem framer_chunk_split_tolerance_witness :
    (sAB.map fun c => [c]).flatten = sAB ∧
    runChunks [] (sAB.map fun c => [c]) = ([], [jA, jB]) :=
  ⟨by decide, framer_chunk_split_tolerance (sAB.map fun c => [c]) (by decide)⟩

/-! ### Relay fan-out lemmas -/

lemma serverRun_append (es : List ServerEvent) (e : ServerEvent) :
    serverRun (es ++ [e]) = serverStep (serverRun es) e := by
  unfold serverRun
  rw [List.foldl_append]
  rfl

lemma mem_broadcast {cid : ℕ} {r v : Json} {cs : List Client} :
    (cid, r) ∈ broadcast v cs ↔ r = v ∧ ∃ c ∈ cs, c.cid = cid ∧ c.readyState = true := by
  simp only [broadcast, List.mem_map, List.mem_filter, Prod.mk.injEq]
  constructor
  · rintro ⟨c, ⟨hc, hrs⟩, hcid, hv⟩
    exact ⟨hv.symm, c, hc, hcid, hrs⟩
  · rintro ⟨rfl, c, hc, hcid, hrs⟩
    exact ⟨c, ⟨hc, hrs⟩, hcid, rfl⟩

lemma split_snoc {es : List ServerEvent} {e : ServerEvent} {pre : List ServerEvent}
    {d : List Char} {suf : List ServerEvent}
    (h : es ++ [e] = pre ++ ServerEvent.chunk d :: suf) :
    (suf = [] ∧ pre = es ∧ ServerEvent.chunk d = e) ∨
    (∃ suf', suf = suf' ++ [e] ∧ es = pre ++ ServerEvent.chunk d :: suf') := by
  rcases List.eq_nil_or_concat suf with rfl | ⟨suf', x, rfl⟩
  · left
    have h2 := List.append_inj' h (by rfl)
    have h3 : ServerEvent.chunk d = e := by
      have := h2.2
      exact (List.cons.injEq _ _ _ _ ▸ this).1.symm
    exact ⟨rfl, h2.1.symm, h3⟩
  · right
    have h2 : es ++ [e] = (pre ++ ServerEvent.chunk d :: suf') ++ [x] := by
      rw [h]
      simp
    have h3 := List.append_inj' h2 (by rfl)
    have hx : e = x := (List.cons.injEq _ _ _ _ ▸ h3.2).1
    exact ⟨suf', by rw [hx, List.concat_eq_append], h3.1⟩

/-- Claim C8: a pair `(cid, r)` is delivered during a server run exactly when
some chunk event emitted the record `r` through the framer, and at that moment
a client with id `cid` was already registered and its transport open.  In
particular a record is sent to every open subscriber registered at emission
time, skipped subscribers get no queuing or retry, and no record reaches a
subscriber registered strictly after its emission. -/
theorem relay_fanout (events : List ServerEvent) (cid : ℕ) (r : Json) :
    (cid, r) ∈ (serverRun events).deliveries ↔
      ∃ pre d suf, events = pre ++ ServerEvent.chunk d :: suf ∧
        r ∈ (processData (serverRun pre).buffer d).2 ∧
        ∃ c ∈ (serverRun pre).clients, c.cid = cid ∧ c.readyState = true := by
  induction events using List.reverseRecOn with
  | nil =>
    show (cid, r) ∈ ([] : List (ℕ × Json)) ↔ _
    simp only [List.not_mem_nil, false_iff]
    rintro ⟨pre, d, suf, h, -⟩
    exact absurd h (by simp)
  | append_singleton es e ih =>
    rw [serverRun_append]
    cases e with
    | register i =>
      show (cid, r) ∈ (serverRun es).deliveries ↔ _
      rw [ih]
      constructor
      · rintro ⟨pre, d, suf, rfl, hr, hc⟩
        exact ⟨pre, d, suf ++ [ServerEvent.register i], by simp, hr, hc⟩
      · rintro ⟨pre, d, suf, h, hr, hc⟩
        rcases split_snoc h with ⟨-, -, hcd⟩ | ⟨suf', -, hes⟩
        · exact absurd hcd (by simp)
        · exact ⟨pre, d, suf', hes, hr, hc⟩
    | setReady i b =>
      show (cid, r) ∈ (serverRun es).deliveries ↔ _
      rw [ih]
      constructor
      · rintro ⟨pre, d, suf, rfl, hr, hc⟩
        exact ⟨pre, d, suf ++ [ServerEvent.setReady i b], by simp, hr, hc⟩
      · rintro ⟨pre, d, suf, h, hr, hc⟩
        rcases split_snoc h with ⟨-, -, hcd⟩ | ⟨suf', -, hes⟩
        · exact absurd hcd (by simp)
        · exact ⟨pre, d, suf', hes, hr, hc⟩
    | chunk d0 =>
      show (cid, r) ∈ (serverRun es).deliveries ++
        (processData (serverRun es).buffer d0).2.flatMap
          (fun v => broadcast v (serverRun es).clients) ↔ _
      rw [List.mem_append, ih]
      constructor
      · rintro (⟨pre, d, suf, rfl, hr, hc⟩ | hnew)
        · exact ⟨pre, d, suf ++ [ServerEvent.chunk d0], by simp, hr, hc⟩
        · rw [List.mem_flatMap] at hnew
          obtain ⟨v, hv, hmem⟩ := hnew
          obtain ⟨rfl, hc⟩ := mem_broadcast.mp hmem
          exact ⟨es, d0, [], rfl, hv, hc⟩
      · rintro ⟨pre, d, suf, h, hr, hc⟩
        rcases split_snoc h with ⟨-, rfl, hcd⟩ | ⟨suf', -, hes⟩
        · right
          have hd : d = d0 := by
            cases hcd
            rfl
          subst hd
          rw [List.mem_flatMap]
          exact ⟨r, hr, mem_broadcast.mpr ⟨rfl, hc⟩⟩
        · left
          exact ⟨pre, d, suf', hes, hr, hc⟩

/-! ### C9: buffer-invariant infrastructure -/

lemma firstIdx_eq_none_iff {pat : List Char} :
    ∀ {cs : List Char}, firstIdx pat cs = none ↔ ∀ i, ¬ pat.isPrefixOf (cs.drop i) = true := by
  intro cs
  induction cs with
  | nil =>
    simp only [firstIdx, List.drop_nil]
    constructor
    · intro h i hp
      rw [hp] at h
      simp at h
    · intro h
      rw [if_neg]
      intro hp
      exact h 0 hp
  | cons c cs ih =>
    simp only [firstIdx]
    constructor
    · intro h i hp
      split at h
      · cases h
      · rename_i hnp
        cases i with
        | zero => exact hnp (by simpa using hp)
        | succ j =>
          rw [Option.map_eq_none'] at h
          exact (ih.mp h) j (by simpa using hp)
    · intro h
      rw [if_neg (by simpa using h 0), Option.map_eq_none']
      rw [ih]
      intro i hp
      exact h (i + 1) (by simpa using hp)

lemma splitLoopF_no_boundary :
    ∀ f : ℕ, ∀ buf : List Char, buf.length < f →
      firstIdx nlPat (splitLoopF f buf).1 = none ∧
        firstIdx brPat (splitLoopF f buf).1 = none := by
  intro f
  induction f with
  | zero => intro buf h; omega
  | succ f ih =>
    intro buf hlt
    cases hnl : firstIdx nlPat buf with
    | some i =>
      have hlen := trim_drop_lt_nl hnl
      rw [splitLoopF_succ_nl f hnl]
      exact ih _ (by omega)
    | none =>
      cases hbr : firstIdx brPat buf with
      | some i =>
        have hlen := trim_drop_lt_br hbr
        rw [splitLoopF_succ_br f hnl hbr]
        exact ih _ (by omega)
      | none =>
        rw [splitLoopF_succ_none f hnl hbr]
        exact ⟨hnl, hbr⟩

lemma splitLoop_no_boundary (buf : List Char) :
    firstIdx nlPat (splitLoop buf).1 = none ∧ firstIdx brPat (splitLoop buf).1 = none :=
  splitLoopF_no_boundary (buf.length + 1) buf (by omega)

lemma skipWs_split (cs : List Char) :
    ∃ ws1, cs = ws1 ++ skipWs cs ∧ ∀ c ∈ ws1, isWs c = true :=
  ⟨cs.takeWhile isWs, (List.takeWhile_append_dropWhile isWs cs).symm,
    fun _ hc => List.mem_takeWhile_imp hc⟩

lemma skipWs_head {c : Char} {cs cs' : List Char} (h : skipWs cs = c :: cs') :
    isWs c = false := by
  induction cs with
  | nil => cases h
  | cons c0 cs0 ih =>
    rw [skipWs, List.dropWhile_cons] at h
    split at h
    · exact ih h
    · rename_i hw
      cases h
      simpa using hw

lemma skipWs_eq_self {cs : List Char} (h : ∀ c cs', cs = c :: cs' → isWs c = false) :
    skipWs cs = cs := by
  cases cs with
  | nil => rfl
  | cons c cs' =>
    rw [skipWs, List.dropWhile_cons, if_neg]
    simp [h c cs' rfl]

lemma getLast?_suffix {l1 l2 : List Char} (h : l1 <:+ l2) (hne : l1 ≠ []) :
    l2.getLast? = l1.getLast? := by
  obtain ⟨pre, rfl⟩ := h
  rw [List.getLast?_append]
  cases hl : l1.getLast? with
  | none =>
    rw [← List.getLast?_isSome] at hne
    rw [hl] at hne
    cases hne
  | some a => rfl

lemma trim_head {c : Char} {cs cs' : List Char} (h : trim cs = c :: cs') :
    isWs c = false := skipWs_head h

lemma trim_getLast {cs : List Char} {l : Char} (h : (trim cs).getLast? = some l) :
    isWs l = false := by
  have h1 : trim cs <:+ (skipWs cs.reverse).reverse := List.dropWhile_suffix isWs
  have hne : trim cs ≠ [] := by
    intro he
    rw [he] at h
    cases h
  have h2 : ((skipWs cs.reverse).reverse).getLast? = some l := by
    rw [getLast?_suffix h1 hne]
    exact h
  rw [List.getLast?_reverse] at h2
  cases hr : skipWs cs.reverse with
  | nil => rw [hr] at h2; cases h2
  | cons a tl =>
    rw [hr] at h2
    simp only [List.head?_cons, Option.some.injEq] at h2
    subst h2
    exact skipWs_head hr

lemma trim_idem (cs : List Char) : trim (trim cs) = trim cs := by
  have hhead : ∀ c cs', trim cs = c :: cs' → isWs c = false := fun c cs' h => trim_head h
  have h1 : (skipWs (trim cs).reverse).reverse = trim cs := by
    have : skipWs (trim cs).reverse = (trim cs).reverse := by
      apply skipWs_eq_self
      intro c cs' hc
      have : (trim cs).getLast? = some c := by
        rw [← List.head?_reverse, hc]
        rfl
      exact trim_getLast this
    rw [this, List.reverse_reverse]
  show skipWs (skipWs (trim cs).reverse).reverse = trim cs
  rw [h1]
  exact skipWs_eq_self hhead

lemma isSuffixOf_singleton_iff {a : Char} {l : List Char} :
    [a].isSuffixOf l = true ↔ l.getLast? = some a := by
  rw [List.isSuffixOf, ← List.head?_reverse]
  show [a].isPrefixOf l.reverse = true ↔ l.reverse.head? = some a
  cases l.reverse with
  | nil =>
    rw [List.isPrefixOf_iff_prefix]
    simp
  | cons b tl =>
    rw [List.isPrefixOf_iff_prefix, List.cons_prefix_cons]
    simp [eq_comm]


lemma getLast?_cons_of_ne_nil {a : Char} {l : List Char} (h : l ≠ []) :
    (a :: l).getLast? = l.getLast? := by
  cases l with
  | nil => exact absurd rfl h
  | cons b tl => exact List.getLast?_cons_cons

lemma parseStringBody_shape :
    ∀ cs : List Char, ∀ s rest, parseStringBody cs = some (s, rest) →
      ∃ body, cs = body ++ rest ∧ body ≠ [] ∧ body.getLast? = some '"' := by
  intro cs
  induction cs using parseStringBody.induct with
  | case1 =>
    intro s rest h
    cases h
  | case2 rest0 =>
    intro s rest h
    simp only [parseStringBody, Option.some.injEq, Prod.mk.injEq] at h
    obtain ⟨-, rfl⟩ := h
    exact ⟨['"'], rfl, by simp, rfl⟩
  | case3 h1 h2 h3 h4 rest0 a b c d hd hc hb ha ih =>
    intro s rest h
    simp only [parseStringBody, ha, hb, hc, hd, Option.map_eq_some'] at h
    obtain ⟨⟨s1, r1⟩, hp, heq⟩ := h
    obtain ⟨b1, hb1, hbne, hbl⟩ := ih s1 r1 hp
    have hr : r1 = rest := (Prod.mk.injEq _ _ _ _ ▸ heq).2
    subst hr
    refine ⟨'\\' :: 'u' :: h1 :: h2 :: h3 :: h4 :: b1, by rw [hb1]; simp, by simp, ?_⟩
    rw [getLast?_cons_of_ne_nil (by simp), getLast?_cons_of_ne_nil (by simp),
      getLast?_cons_of_ne_nil (by simp), getLast?_cons_of_ne_nil (by simp),
      getLast?_cons_of_ne_nil (by simp), getLast?_cons_of_ne_nil hbne]
    exact hbl
  | case4 h1 h2 h3 h4 rest0 hfail =>
    intro s rest h
    simp only [parseStringBody] at h
    cases h
  | case5 e rest0 hnot c hesc ih =>
    intro s rest h
    simp only [parseStringBody, hesc, Option.map_eq_some'] at h
    obtain ⟨⟨s1, r1⟩, hp, heq⟩ := h
    obtain ⟨b1, hb1, hbne, hbl⟩ := ih s1 r1 hp
    have hr : r1 = rest := (Prod.mk.injEq _ _ _ _ ▸ heq).2
    subst hr
    refine ⟨'\\' :: e :: b1, by rw [hb1]; simp, by simp, ?_⟩
    rw [getLast?_cons_of_ne_nil (by simp), getLast?_cons_of_ne_nil hbne]
    exact hbl
  | case6 e rest0 hnot hesc =>
    intro s rest h
    simp only [parseStringBody, hesc] at h
    cases h
  | case7 c rest0 hq hu he hctl =>
    intro s rest h
    simp only [parseStringBody, if_pos hctl] at h
    cases h
  | case8 c rest0 hq hu he hctl ih =>
    intro s rest h
    simp only [parseStringBody, if_neg hctl, Option.map_eq_some'] at h
    obtain ⟨⟨s1, r1⟩, hp, heq⟩ := h
    obtain ⟨b1, hb1, hbne, hbl⟩ := ih s1 r1 hp
    have hr : r1 = rest := (Prod.mk.injEq _ _ _ _ ▸ heq).2
    subst hr
    refine ⟨c :: b1, by rw [hb1]; simp, by simp, ?_⟩
    rw [getLast?_cons_of_ne_nil hbne]
    exact hbl


lemma getLast?_mem_self {l : List Char} {a : Char} (h : l.getLast? = some a) : a ∈ l := by
  have hmem : a ∈ l.getLast? := by rw [Option.mem_def, h]
  obtain ⟨hne, heq⟩ := List.mem_getLast?_eq_getLast hmem
  rw [heq]
  exact List.getLast_mem hne

lemma isDigit_not_ws {c : Char} (h : c.isDigit = true) : isWs c = false := by
  by_cases hw : isWs c = true
  · exfalso
    rw [isWs] at hw
    rcases Bool.or_eq_true_iff.mp hw with hw | hr
    · rcases Bool.or_eq_true_iff.mp hw with hw | hn
      · rcases Bool.or_eq_true_iff.mp hw with hs | ht
        · rw [beq_iff_eq.mp hs] at h; cases h
        · rw [beq_iff_eq.mp ht] at h; cases h
      · rw [beq_iff_eq.mp hn] at h; cases h
    · rw [beq_iff_eq.mp hr] at h; cases h
  · simpa using hw

lemma parseSign_shape (cs : List Char) :
    cs = (if (parseSign cs).1 then ['-'] else []) ++ (parseSign cs).2 := by
  cases cs with
  | nil => rfl
  | cons c r =>
    simp only [parseSign]
    by_cases hc : c = '-' <;> simp [hc]

lemma parseIntPart_shape {cs : List Char} {ip : ℕ} {rest : List Char}
    (h : parseIntPart cs = some (ip, rest)) :
    ∃ body, cs = body ++ rest ∧ body ≠ [] ∧ ∀ c ∈ body, c.isDigit = true := by
  cases cs with
  | nil => cases h
  | cons c r =>
    simp only [parseIntPart] at h
    split at h
    · rename_i hc
      simp only [Option.some.injEq, Prod.mk.injEq] at h
      obtain ⟨-, rfl⟩ := h
      subst hc
      refine ⟨['0'], rfl, by simp, ?_⟩
      intro x hx
      simp only [List.mem_singleton] at hx
      subst hx
      decide
    · split at h
      · rename_i hc hd
        simp only [Option.some.injEq, Prod.mk.injEq] at h
        obtain ⟨-, rfl⟩ := h
        refine ⟨c :: r.takeWhile Char.isDigit, ?_, by simp, ?_⟩
        · rw [List.cons_append, List.takeWhile_append_dropWhile]
        · intro x hx
          rcases List.mem_cons.mp hx with rfl | hx
          · exact hd
          · exact List.mem_takeWhile_imp hx
      · cases h

lemma parseFracPart_shape {cs : List Char} {fv fl : ℕ} {rest : List Char}
    (h : parseFracPart cs = some (fv, fl, rest)) :
    ∃ body, cs = body ++ rest ∧
      (body = [] ∨ ∃ d, body.getLast? = some d ∧ d.isDigit = true) := by
  unfold parseFracPart at h
  split at h
  · rename_i r
    split at h
    · cases h
    · rename_i hds
      simp only [Option.some.injEq, Prod.mk.injEq] at h
      obtain ⟨-, -, rfl⟩ := h
      refine ⟨'.' :: r.takeWhile Char.isDigit, ?_, Or.inr ?_⟩
      · rw [List.cons_append, List.takeWhile_append_dropWhile]
      · obtain ⟨d, hd⟩ := Option.isSome_iff_exists.mp (List.getLast?_isSome.mpr hds)
        refine ⟨d, ?_, List.mem_takeWhile_imp (getLast?_mem_self hd)⟩
        rw [getLast?_cons_of_ne_nil (show List.takeWhile Char.isDigit r ≠ [] from hds)]
        exact hd
  · simp only [Option.some.injEq, Prod.mk.injEq] at h
    obtain ⟨-, -, rfl⟩ := h
    exact ⟨[], rfl, Or.inl rfl⟩

lemma parseExpSign_shape (cs : List Char) :
    ∃ sgn, cs = sgn ++ (parseExpSign cs).2 ∧ (sgn = [] ∨ sgn = ['+'] ∨ sgn = ['-']) := by
  cases cs with
  | nil => exact ⟨[], rfl, Or.inl rfl⟩
  | cons c r =>
    simp only [parseExpSign]
    by_cases hp : c = '+'
    · subst hp
      exact ⟨['+'], by simp, Or.inr (Or.inl rfl)⟩
    · by_cases hm : c = '-'
      · subst hm
        rw [if_neg (show ¬(('-' : Char) = '+') from by decide), if_pos rfl]
        exact ⟨['-'], by simp, Or.inr (Or.inr rfl)⟩
      · rw [if_neg hp, if_neg hm]
        exact ⟨[], rfl, Or.inl rfl⟩

lemma parseExpTail_shape {cs : List Char} {e : ℤ} {rest : List Char}
    (h : parseExpTail cs = some (e, rest)) :
    ∃ body, cs = body ++ rest ∧ body ≠ [] ∧
      ∃ d, body.getLast? = some d ∧ d.isDigit = true := by
  unfold parseExpTail at h
  split at h
  · cases h
  · rename_i hds
    simp only [Option.some.injEq, Prod.mk.injEq] at h
    obtain ⟨-, rfl⟩ := h
    obtain ⟨sgn, hsgn, hcases⟩ := parseExpSign_shape cs
    obtain ⟨d, hd⟩ := Option.isSome_iff_exists.mp (List.getLast?_isSome.mpr hds)
    refine ⟨sgn ++ (parseExpSign cs).2.takeWhile Char.isDigit, ?_, ?_, d, ?_,
      List.mem_takeWhile_imp (getLast?_mem_self hd)⟩
    · rw [List.append_assoc, List.takeWhile_append_dropWhile]
      exact hsgn
    · intro hemp
      rcases List.append_eq_nil.mp hemp with ⟨-, h2⟩
      exact hds h2
    · rw [List.getLast?_append, hd]
      rfl

lemma parseExpPart_shape {cs : List Char} {e : ℤ} {rest : List Char}
    (h : parseExpPart cs = some (e, rest)) :
    ∃ body, cs = body ++ rest ∧
      (body = [] ∨ ∃ d, body.getLast? = some d ∧ d.isDigit = true) := by
  cases cs with
  | nil =>
    simp only [parseExpPart, Option.some.injEq, Prod.mk.injEq] at h
    obtain ⟨-, rfl⟩ := h
    exact ⟨[], rfl, Or.inl rfl⟩
  | cons c r =>
    simp only [parseExpPart] at h
    split at h
    · obtain ⟨body, hb, hbne, d, hd, hdig⟩ := parseExpTail_shape h
      rename_i hor
      refine ⟨c :: body, by rw [hb, List.cons_append], Or.inr ⟨d, ?_, hdig⟩⟩
      rw [getLast?_cons_of_ne_nil hbne]
      exact hd
    · simp only [Option.some.injEq, Prod.mk.injEq] at h
      obtain ⟨-, rfl⟩ := h
      exact ⟨[], rfl, Or.inl rfl⟩

lemma parseNumber_shape {cs : List Char} {me : ℤ × ℤ} {rest : List Char}
    (h : parseNumber cs = some (me, rest)) :
    ∃ body, cs = body ++ rest ∧ body ≠ [] ∧
      (∀ c, body.head? = some c → isWs c = false) ∧
      ∃ d, body.getLast? = some d ∧ d.isDigit = true := by
  unfold parseNumber at h
  split at h
  · cases h
  · rename_i ip cs2 hint
    split at h
    · cases h
    · rename_i fv fl cs3 hfrac
      split at h
      · cases h
      · rename_i e cs4 hexp
        simp only [Option.some.injEq, Prod.mk.injEq] at h
        obtain ⟨-, rfl⟩ := h
        obtain ⟨ib, hib, hibne, hibd⟩ := parseIntPart_shape hint
        obtain ⟨fb, hfb, hfbl⟩ := parseFracPart_shape hfrac
        obtain ⟨eb, heb, hebl⟩ := parseExpPart_shape hexp
        refine ⟨(if (parseSign cs).1 then ['-'] else []) ++ ib ++ fb ++ eb, ?_, ?_, ?_, ?_⟩
        · conv_lhs => rw [parseSign_shape cs]
          rw [hib, hfb, heb]
          simp [List.append_assoc]
        · intro hemp
          simp only [List.append_eq_nil] at hemp
          exact hibne hemp.1.1.2
        · by_cases hs : (parseSign cs).1
          · rw [if_pos hs]
            intro c hc
            have hc' : c = '-' := by
              have : (((['-'] ++ ib) ++ fb) ++ eb).head? = some '-' := rfl
              rw [this] at hc
              exact (Option.some.injEq _ _ ▸ hc).symm
            rw [hc']
            decide
          · rw [if_neg hs]
            obtain ⟨hi, it, rfl⟩ := List.exists_cons_of_ne_nil hibne
            intro c hc
            have : (((([] : List Char) ++ (hi :: it)) ++ fb) ++ eb).head? = some hi := rfl
            rw [this] at hc
            have hc' : c = hi := (Option.some.injEq _ _ ▸ hc).symm
            rw [hc']
            exact isDigit_not_ws (hibd hi (List.mem_cons_self hi it))
        · rcases hebl with rfl | ⟨d, hd, hdig⟩
          · rcases hfbl with rfl | ⟨d, hd, hdig⟩
            · obtain ⟨d, hd⟩ := Option.isSome_iff_exists.mp (List.getLast?_isSome.mpr hibne)
              refine ⟨d, ?_, hibd d (getLast?_mem_self hd)⟩
              rw [List.append_nil, List.append_nil, List.getLast?_append, hd]
              rfl
            · refine ⟨d, ?_, hdig⟩
              rw [List.append_nil, List.getLast?_append, hd]
              rfl
          · refine ⟨d, ?_, hdig⟩
            rw [List.getLast?_append, hd]
            rfl


lemma getLast?_append_some {l1 l2 : List Char} {d : Char} (h : l2.getLast? = some d) :
    (l1 ++ l2).getLast? = some d := by
  rw [List.getLast?_append, h]
  rfl

lemma ne_nil_of_getLast? {l : List Char} {d : Char} (h : l.getLast? = some d) : l ≠ [] := by
  intro he
  rw [he] at h
  cases h

lemma parse_shape : ∀ f : ℕ,
    (∀ cs v rest, parseVal f cs = some (v, rest) →
      ∃ ws1 body, cs = ws1 ++ body ++ rest ∧ (∀ c ∈ ws1, isWs c = true) ∧ body ≠ [] ∧
        (∀ c, body.head? = some c → isWs c = false) ∧
        (∀ l, body.getLast? = some l → isWs l = false ∧ (l = '\x7d' ↔ Json.isObjB v = true))) ∧
    (∀ cs kvs rest, parsePairs f cs = some (kvs, rest) →
      ∃ body, cs = body ++ rest ∧ body.getLast? = some '\x7d') ∧
    (∀ cs xs rest, parseElems f cs = some (xs, rest) →
      ∃ body, cs = body ++ rest ∧ body.getLast? = some ']') := by
  intro f
  induction f with
  | zero =>
    refine ⟨?_, ?_, ?_⟩
    · intro cs v rest h
      rw [show parseVal 0 cs = none from rfl] at h
      cases h
    · intro cs kvs rest h
      rw [show parsePairs 0 cs = none from rfl] at h
      cases h
    · intro cs xs rest h
      rw [show parseElems 0 cs = none from rfl] at h
      cases h
  | succ f ih =>
    obtain ⟨ihV, ihP, ihE⟩ := ih
    refine ⟨?_, ?_, ?_⟩
    · intro cs v rest h
      obtain ⟨ws1, hws, hall⟩ := skipWs_split cs
      simp only [parseVal] at h
      split at h
      · rename_i rest0 heq
        simp only [Option.some.injEq, Prod.mk.injEq] at h
        obtain ⟨rfl, rfl⟩ := h
        refine ⟨ws1, ['n', 'u', 'l', 'l'], ?_, hall, by simp, ?_, ?_⟩
        · rw [hws, heq]; simp
        · intro c hc
          simp only [List.head?_cons, Option.some.injEq] at hc
          subst hc; decide
        · intro l hl
          simp only [show (['n', 'u', 'l', 'l'] : List Char).getLast? = some 'l' from rfl,
            Option.some.injEq] at hl
          subst hl
          exact ⟨by decide, Iff.intro (fun hq => absurd hq (by decide))
            (fun hq => Bool.noConfusion hq)⟩
      · rename_i rest0 heq
        simp only [Option.some.injEq, Prod.mk.injEq] at h
        obtain ⟨rfl, rfl⟩ := h
        refine ⟨ws1, ['t', 'r', 'u', 'e'], ?_, hall, by simp, ?_, ?_⟩
        · rw [hws, heq]; simp
        · intro c hc
          simp only [List.head?_cons, Option.some.injEq] at hc
          subst hc; decide
        · intro l hl
          simp only [show (['t', 'r', 'u', 'e'] : List Char).getLast? = some 'e' from rfl,
            Option.some.injEq] at hl
          subst hl
          exact ⟨by decide, Iff.intro (fun hq => absurd hq (by decide))
            (fun hq => Bool.noConfusion hq)⟩
      · rename_i rest0 heq
        simp only [Option.some.injEq, Prod.mk.injEq] at h
        obtain ⟨rfl, rfl⟩ := h
        refine ⟨ws1, ['f', 'a', 'l', 's', 'e'], ?_, hall, by simp, ?_, ?_⟩
        · rw [hws, heq]; simp
        · intro c hc
          simp only [List.head?_cons, Option.some.injEq] at hc
          subst hc; decide
        · intro l hl
          simp only [show (['f', 'a', 'l', 's', 'e'] : List Char).getLast? = some 'e' from rfl,
            Option.some.injEq] at hl
          subst hl
          exact ⟨by decide, Iff.intro (fun hq => absurd hq (by decide))
            (fun hq => Bool.noConfusion hq)⟩
      · rename_i rest0 heq
        rw [Option.map_eq_some'] at h
        obtain ⟨⟨s1, r1⟩, hp, heq2⟩ := h
        simp only [Prod.mk.injEq] at heq2
        obtain ⟨rfl, rfl⟩ := heq2
        obtain ⟨sb, hsb, hsbne, hsbl⟩ := parseStringBody_shape rest0 s1 r1 hp
        refine ⟨ws1, '"' :: sb, ?_, hall, by simp, ?_, ?_⟩
        · rw [hws, heq, hsb]; simp
        · intro c hc
          simp only [List.head?_cons, Option.some.injEq] at hc
          subst hc; decide
        · intro l hl
          rw [getLast?_cons_of_ne_nil hsbne, hsbl] at hl
          simp only [Option.some.injEq] at hl
          subst hl
          exact ⟨by decide, Iff.intro (fun hq => absurd hq (by decide))
            (fun hq => Bool.noConfusion hq)⟩
      · rename_i rest0 heq
        split at h
        · rename_i r2 heq2
          simp only [Option.some.injEq, Prod.mk.injEq] at h
          obtain ⟨rfl, rfl⟩ := h
          obtain ⟨ws2, hws2, hall2⟩ := skipWs_split rest0
          refine ⟨ws1, '\x7b' :: (ws2 ++ ['\x7d']), ?_, hall, by simp, ?_, ?_⟩
          · rw [hws, heq, hws2, heq2]; simp
          · intro c hc
            simp only [List.head?_cons, Option.some.injEq] at hc
            subst hc; decide
          · intro l hl
            rw [getLast?_cons_of_ne_nil (by simp), List.getLast?_concat] at hl
            simp only [Option.some.injEq] at hl
            subst hl
            exact ⟨by decide, by simp [Json.isObjB]⟩
        · rw [Option.map_eq_some'] at h
          obtain ⟨⟨kvs, r1⟩, hp, heq2⟩ := h
          simp only [Prod.mk.injEq] at heq2
          obtain ⟨rfl, rfl⟩ := heq2
          obtain ⟨pb, hpb, hpbl⟩ := ihP rest0 kvs r1 hp
          refine ⟨ws1, '\x7b' :: pb, ?_, hall, by simp, ?_, ?_⟩
          · rw [hws, heq, hpb]; simp
          · intro c hc
            simp only [List.head?_cons, Option.some.injEq] at hc
            subst hc; decide
          · intro l hl
            rw [getLast?_cons_of_ne_nil (ne_nil_of_getLast? hpbl), hpbl] at hl
            simp only [Option.some.injEq] at hl
            subst hl
            exact ⟨by decide, by simp [Json.isObjB]⟩
      · rename_i rest0 heq
        split at h
        · rename_i r2 heq2
          simp only [Option.some.injEq, Prod.mk.injEq] at h
          obtain ⟨rfl, rfl⟩ := h
          obtain ⟨ws2, hws2, hall2⟩ := skipWs_split rest0
          refine ⟨ws1, '[' :: (ws2 ++ [']']), ?_, hall, by simp, ?_, ?_⟩
          · rw [hws, heq, hws2, heq2]; simp
          · intro c hc
            simp only [List.head?_cons, Option.some.injEq] at hc
            subst hc; decide
          · intro l hl
            rw [getLast?_cons_of_ne_nil (by simp), List.getLast?_concat] at hl
            simp only [Option.some.injEq] at hl
            subst hl
            exact ⟨by decide, Iff.intro (fun hq => absurd hq (by decide))
              (fun hq => Bool.noConfusion hq)⟩
        · rw [Option.map_eq_some'] at h
          obtain ⟨⟨xs, r1⟩, hp, heq2⟩ := h
          simp only [Prod.mk.injEq] at heq2
          obtain ⟨rfl, rfl⟩ := heq2
          obtain ⟨eb, hebq, hebl⟩ := ihE rest0 xs r1 hp
          refine ⟨ws1, '[' :: eb, ?_, hall, by simp, ?_, ?_⟩
          · rw [hws, heq, hebq]; simp
          · intro c hc
            simp only [List.head?_cons, Option.some.injEq] at hc
            subst hc; decide
          · intro l hl
            rw [getLast?_cons_of_ne_nil (ne_nil_of_getLast? hebl), hebl] at hl
            simp only [Option.some.injEq] at hl
            subst hl
            exact ⟨by decide, Iff.intro (fun hq => absurd hq (by decide))
              (fun hq => Bool.noConfusion hq)⟩
      · rw [Option.map_eq_some'] at h
        obtain ⟨⟨mq, r1⟩, hp, heq2⟩ := h
        simp only [Prod.mk.injEq] at heq2
        obtain ⟨rfl, rfl⟩ := heq2
        obtain ⟨nb, hnb, hnbne, hnbh, d, hnbl, hdig⟩ := parseNumber_shape hp
        refine ⟨ws1, nb, ?_, hall, hnbne, hnbh, ?_⟩
        · rw [hws, hnb]; simp
        · intro l hl
          rw [hnbl] at hl
          simp only [Option.some.injEq] at hl
          subst hl
          refine ⟨isDigit_not_ws hdig, ?_⟩
          constructor
          · intro hq
            rw [hq] at hdig
            exact absurd hdig (by decide)
          · intro hq
            exact Bool.noConfusion hq
    · intro cs kvs rest h
      simp only [parsePairs] at h
      split at h
      · rename_i rest0 heq
        obtain ⟨ws1, hws, hall⟩ := skipWs_split cs
        split at h
        · cases h
        · rename_i k r1 hstr
          obtain ⟨sb, hsb, hsbne, hsbl⟩ := parseStringBody_shape rest0 k r1 hstr
          obtain ⟨ws2, hws2, hall2⟩ := skipWs_split r1
          split at h
          · rename_i r2 heq2
            split at h
            · cases h
            · rename_i v r3 hval
              obtain ⟨ws3, vb, hvb, hall3, hvbne, hvbh, hvbl⟩ := ihV r2 v r3 hval
              obtain ⟨ws4, hws4, hall4⟩ := skipWs_split r3
              split at h
              · rename_i r4 heq4
                split at h
                · cases h
                · rename_i kvs2 r5 hrec
                  simp only [Option.some.injEq, Prod.mk.injEq] at h
                  obtain ⟨rfl, rfl⟩ := h
                  obtain ⟨pb, hpbq, hpbl⟩ := ihP r4 kvs2 r5 hrec
                  refine ⟨(ws1 ++ '"' :: sb ++ ws2 ++ ':' :: ws3 ++ vb ++ ws4 ++ [',']) ++ pb,
                    ?_, getLast?_append_some hpbl⟩
                  rw [hws, heq, hsb, hws2, heq2, hvb, hws4, heq4, hpbq]
                  simp
              · rename_i r4 heq4
                simp only [Option.some.injEq, Prod.mk.injEq] at h
                obtain ⟨rfl, rfl⟩ := h
                refine ⟨(ws1 ++ '"' :: sb ++ ws2 ++ ':' :: ws3 ++ vb ++ ws4) ++ ['\x7d'],
                  ?_, List.getLast?_concat _⟩
                rw [hws, heq, hsb, hws2, heq2, hvb, hws4, heq4]
                simp
              · cases h
          · cases h
      · cases h
    · intro cs xs rest h
      simp only [parseElems] at h
      split at h
      · cases h
      · rename_i v r1 hval
        obtain ⟨ws1, vb, hvb, hall1, hvbne, hvbh, hvbl⟩ := ihV cs v r1 hval
        obtain ⟨ws2, hws2, hall2⟩ := skipWs_split r1
        split at h
        · rename_i r2 heq2
          split at h
          · cases h
          · rename_i xs2 r3 hrec
            simp only [Option.some.injEq, Prod.mk.injEq] at h
            obtain ⟨rfl, rfl⟩ := h
            obtain ⟨eb, hebq, hebl⟩ := ihE r2 xs2 r3 hrec
            refine ⟨(ws1 ++ vb ++ ws2 ++ [',']) ++ eb, ?_, getLast?_append_some hebl⟩
            rw [hvb, hws2, heq2, hebq]
            simp
        · rename_i r2 heq2
          simp only [Option.some.injEq, Prod.mk.injEq] at h
          obtain ⟨rfl, rfl⟩ := h
          refine ⟨(ws1 ++ vb ++ ws2) ++ [']'], ?_, List.getLast?_concat _⟩
          rw [hvb, hws2, heq2]
          simp
        · cases h


lemma jsonParse_shape {cs : List Char} {v : Json} (h : jsonParse cs = some v) :
    ∃ d, (trim cs).getLast? = some d ∧ (d = '\x7d' ↔ Json.isObjB v = true) := by
  simp only [jsonParse] at h
  split at h
  · rename_i v1 rest hpv
    split at h
    · rename_i hrest
      simp only [Option.some.injEq] at h
      subst h
      obtain ⟨ws1, body, hsplit, hall, hbne, hbh, hbl⟩ :=
        (parse_shape ((trim cs).length + 1)).1 (trim cs) v1 rest hpv
      have hws1 : ws1 = [] := by
        cases hws : ws1 with
        | nil => rfl
        | cons c t =>
          exfalso
          rw [hws] at hsplit
          have hhead : isWs c = false := trim_head (by rw [hsplit]; rfl)
          have : isWs c = true := hall c (by rw [hws]; exact List.mem_cons_self c t)
          rw [this] at hhead
          cases hhead
      subst hws1
      have hrestnil : rest = [] := by
        cases hr : rest with
        | nil => rfl
        | cons c t =>
          exfalso
          have hallr : ∀ x ∈ rest, isWs x = true := List.dropWhile_eq_nil_iff.mp hrest
          have hlast : (trim cs).getLast? = rest.getLast? := by
            rw [hsplit, List.nil_append, List.getLast?_append]
            cases hrl : rest.getLast? with
            | none =>
              rw [← List.getLast?_isSome] at *
              rw [hr] at hrl
              simp at hrl
            | some a => rfl
          obtain ⟨d0, hd0⟩ := Option.isSome_iff_exists.mp
            (List.getLast?_isSome.mpr (show rest ≠ [] by rw [hr]; simp))
          have hd0ws : isWs d0 = true := hallr d0 (getLast?_mem_self hd0)
          have : isWs d0 = false := trim_getLast (by rw [hlast]; exact hd0)
          rw [this] at hd0ws
          cases hd0ws
      subst hrestnil
      have hbody : trim cs = body := by
        rw [hsplit]
        simp
      obtain ⟨d, hd⟩ := Option.isSome_iff_exists.mp (List.getLast?_isSome.mpr hbne)
      exact ⟨d, by rw [hbody]; exact hd, (hbl d hd).2⟩
    · cases h
  · cases h

lemma jsonParse_obj_suffix {cs : List Char} {kvs : JsonKVs}
    (h : jsonParse cs = some (Json.obj kvs)) :
    ['\x7d'].isSuffixOf (trim cs) = true := by
  obtain ⟨d, hd, hiff⟩ := jsonParse_shape h
  have hde : d = '\x7d' := hiff.mpr rfl
  subst hde
  rw [isSuffixOf_singleton_iff]
  exact hd

lemma jsonParse_non_obj_not_suffix {cs : List Char} {v : Json}
    (h : jsonParse cs = some v) (hv : Json.isObjB v = false) :
    ['\x7d'].isSuffixOf (trim cs) = false := by
  obtain ⟨d, hd, hiff⟩ := jsonParse_shape h
  cases hb : ['\x7d'].isSuffixOf (trim cs) with
  | false => rfl
  | true =>
    exfalso
    rw [isSuffixOf_singleton_iff] at hb
    rw [hd] at hb
    have hde : d = '\x7d' := (Option.some.injEq _ _ ▸ hb)
    rw [hiff.mp hde] at hv
    cases hv

lemma tryParseAndSend_eq {cs : List Char} {v : Json} (h : jsonParse cs = some v) :
    tryParseAndSend cs = some v := by
  have hne : trim cs ≠ [] := by
    obtain ⟨d, hd, -⟩ := jsonParse_shape h
    exact ne_nil_of_getLast? hd
  unfold tryParseAndSend
  rw [if_neg hne]
  rw [show jsonParse (trim cs) = jsonParse cs from by unfold jsonParse; rw [trim_idem]]
  exact h

/-- Claim C9: after the framer finishes a chunk, the retained buffer contains
no object boundary (neither `'\x7d\n\x7b'` nor `'\x7d\x7b'`); and writing
`(b1, es1)` for the state after the boundary-splitting loop, if the (trimmed)
remaining buffer `b1` parses as one complete record (a JSON object), it is
emitted and the buffer cleared to empty, and otherwise the buffer and the
emissions are left exactly as the loop produced them. -/
theorem rawStreamBuffer_invariant (buf chunk : List Char) :
    (∀ i, ¬ nlPat.isPrefixOf ((processData buf chunk).1.drop i) = true) ∧
    (∀ i, ¬ brPat.isPrefixOf ((processData buf chunk).1.drop i) = true) ∧
    (∀ kvs, jsonParse (splitLoop (buf ++ chunk)).1 = some (Json.obj kvs) →
      (processData buf chunk).1 = [] ∧
      (processData buf chunk).2 = (splitLoop (buf ++ chunk)).2 ++ [Json.obj kvs]) ∧
    ((∀ kvs, jsonParse (splitLoop (buf ++ chunk)).1 ≠ some (Json.obj kvs)) →
      processData buf chunk = splitLoop (buf ++ chunk)) := by
  have hnb := splitLoop_no_boundary (buf ++ chunk)
  have h1or : (processData buf chunk).1 = [] ∨
      (processData buf chunk).1 = (splitLoop (buf ++ chunk)).1 := by
    simp only [processData]
    split
    · left; rfl
    · right; rfl
  refine ⟨?_, ?_, ?_, ?_⟩
  · intro i
    rcases h1or with he | he <;> rw [he]
    · rw [List.drop_nil]
      intro hp
      rw [show nlPat.isPrefixOf ([] : List Char) = false from by decide] at hp
      exact Bool.noConfusion hp
    · exact firstIdx_eq_none_iff.mp hnb.1 i
  · intro i
    rcases h1or with he | he <;> rw [he]
    · rw [List.drop_nil]
      intro hp
      rw [show brPat.isPrefixOf ([] : List Char) = false from by decide] at hp
      exact Bool.noConfusion hp
    · exact firstIdx_eq_none_iff.mp hnb.2 i
  · intro kvs hobj
    have hsuf := jsonParse_obj_suffix hobj
    have htp := tryParseAndSend_eq hobj
    have heq : processData buf chunk =
        ([], (splitLoop (buf ++ chunk)).2 ++ [Json.obj kvs]) := by
      simp only [processData]
      rw [if_pos (by rw [hsuf, hobj]; rfl)]
      rw [htp]
      rfl
    exact ⟨by rw [heq], by rw [heq]⟩
  · intro hno
    cases hjp : jsonParse (splitLoop (buf ++ chunk)).1 with
    | none =>
      simp only [processData]
      rw [if_neg]
      intro hcond
      rw [Bool.and_eq_true] at hcond
      rw [hjp] at hcond
      exact Bool.noConfusion hcond.2
    | some v =>
      have hvno : Json.isObjB v = false := by
        cases v <;> first | rfl | exact absurd hjp (hno _)
      have hsuf := jsonParse_non_obj_not_suffix hjp hvno
      simp only [processData]
      rw [if_neg]
      intro hcond
      rw [Bool.and_eq_true] at hcond
      rw [hsuf] at hcond
      exact Bool.noConfusion hcond.1

/-- Witness for C9: the chunk `recA` makes the post-loop buffer a complete
record (emitted, buffer cleared), while the chunk `['x']` leaves an
unparseable buffer untouched. -/
theorem rawStreamBuffer_invariant_witness :
    (jsonParse (splitLoop ([] ++ recA)).1 =
        some (Json.obj (JsonKVs.cons ['a'] (Json.num 1 0) JsonKVs.nil)) ∧
      (processData [] recA).1 = [] ∧
      (processData [] recA).2 =
        (splitLoop ([] ++ recA)).2 ++ [Json.obj (JsonKVs.cons ['a'] (Json.num 1 0) JsonKVs.nil)]) ∧
    processData [] ['x'] = splitLoop ([] ++ ['x']) := by
  constructor
  · refine ⟨by decide, ?_⟩
    exact (rawStreamBuffer_invariant [] recA).2.2.1
      (JsonKVs.cons ['a'] (Json.num 1 0) JsonKVs.nil) (by decide)
  · refine (rawStreamBuffer_invariant [] ['x']).2.2.2 ?_
    intro kvs h
    rw [show jsonParse (splitLoop ([] ++ ['x'])).1 = none from by decide] at h
    cases h

end VRC
